import Mathlib

/-!
Verification of the "Nest" reminders application (ordering, hierarchy and
store-client engine) against its natural-language specification.

The definitions below are a shallow embedding of the TypeScript source:

* `TodoRecord` embeds the record interface of `src/unnamed/part_003` /
  `src/lib/supabase/rest.ts` (`position : number` is embedded as `Int`).
* `arrayMove`, `normalizePositions` embed the helpers of
  `src/components/todo-app.tsx` (lines 47-59), which are repeated verbatim in
  the variants of `src/unnamed/part_004`.
* JavaScript `Array.prototype.splice` index clamping is embedded explicitly:
  `insertAt` appends when the index is past the end, `removeAt` removes
  nothing when the index is past the end; callers only produce non-negative
  indices (they come from `findIndex` guarded against `-1`).
-/

namespace Nest

structure TodoRecord where
  id : String
  title : String
  is_completed : Bool
  position : Int
  parent_id : Option String
  created_at : String
  updated_at : String
deriving DecidableEq, Repr

/-- Element insertion at an index, with the `splice(i, 0, x)` clamping
behaviour of JavaScript arrays: an index past the end appends. -/
def insertAt : List α → Nat → α → List α
  | xs, 0, a => a :: xs
  | [], _ + 1, a => [a]
  | x :: xs, n + 1, a => x :: insertAt xs n a

/-- Element removal at an index, with the `splice(i, 1)` behaviour of
JavaScript arrays: an index past the end removes nothing. -/
def removeAt : List α → Nat → List α
  | [], _ => []
  | _ :: xs, 0 => xs
  | x :: xs, n + 1 => x :: removeAt xs n

/-- `Array.prototype.findIndex(todo => todo.id === id)`, with `-1` embedded
as `none`. -/
def findIdxById : List TodoRecord → String → Option Nat
  | [], _ => none
  | t :: ts, i => if t.id = i then some 0 else (findIdxById ts i).map (· + 1)

/-- `items.find(todo => todo.id === id)` (first match). -/
def findById : List TodoRecord → String → Option TodoRecord
  | [], _ => none
  | t :: ts, i => if t.id = i then some t else findById ts i

/-- `arrayMove` from `src/components/todo-app.tsx` lines 47-55: splice the
item out of `fromIndex` and splice it back in at `toIndex`; if nothing was
removed the input is returned unchanged. -/
def arrayMove (items : List α) (fromIndex toIndex : Nat) : List α :=
  match items[fromIndex]? with
  | none => items
  | some moved => insertAt (removeAt items fromIndex) toIndex moved

/-- Helper realising `items.map((todo, index) => ({ ...todo, position: index }))`
starting from index `n`. -/
def normFrom : Nat → List TodoRecord → List TodoRecord
  | _, [] => []
  | n, t :: ts => { t with position := (n : Int) } :: normFrom (n + 1) ts

/-- `normalizePositions` from `src/components/todo-app.tsx` lines 57-59. -/
def normalizePositions (items : List TodoRecord) : List TodoRecord :=
  normFrom 0 items

/-- A record with its `position` wiped; two lists agreeing up to `clearPos`
agree on everything `normalizePositions` does not overwrite. -/
def clearPos (t : TodoRecord) : TodoRecord :=
  { t with position := 0 }

/-- Delete of one item as performed by `handleDelete`
(`src/components/todo-app.tsx` lines 184-209): drop the id, renormalize. -/
def removeItem (items : List TodoRecord) (id : String) : List TodoRecord :=
  normalizePositions (items.filter (fun t => t.id ≠ id))

/-- Drag `moveTo`: reposition the item with the given id at the target index
(the pointer-move handler of `startDrag`, `src/components/todo-app.tsx`
lines 284-292, with the two `findIndex` results guarded against `-1`). -/
def moveTo (items : List TodoRecord) (id : String) (targetIndex : Nat) :
    List TodoRecord :=
  match findIdxById items id with
  | none => items
  | some fromIndex => normalizePositions (arrayMove items fromIndex targetIndex)

/-- `items.map((item, index) => f(item, index))` index bookkeeping, starting
at `n`. -/
def withIndices : Nat → List α → List (α × Nat)
  | _, [] => []
  | n, x :: xs => (x, n) :: withIndices (n + 1) xs

/-- `array.some((todo, index) => f(index, todo))`, counting from `n`. -/
def someWithIndex (f : Nat → α → Bool) : Nat → List α → Bool
  | _, [] => false
  | n, x :: xs => f n x || someWithIndex f (n + 1) xs

/-- JavaScript `String.prototype.trim` embedded over the character list
(the built-in `String.trim` is not kernel-reducible). -/
def jsTrim (s : String) : String :=
  String.mk
    (((s.toList.dropWhile Char.isWhitespace).reverse.dropWhile
      Char.isWhitespace).reverse)

/-- `Array.from(new Set(xs))`: deduplication keeping first occurrences,
written with an explicit seen-accumulator so it stays structurally
recursive. -/
def jsDedupGo (seen : List String) : List String → List String
  | [] => []
  | x :: xs => if x ∈ seen then jsDedupGo seen xs
               else x :: jsDedupGo (x :: seen) xs

def jsDedup (l : List String) : List String := jsDedupGo [] l

/-- Test fixture constructor: a record with the given id and parent. -/
def mkTodo (id : String) (parent : Option String) : TodoRecord :=
  { id := id, title := id, is_completed := false, position := 0,
    parent_id := parent, created_at := "", updated_at := "" }

/-! ### Ordering engine: keyboard move-by-offset (`src/unnamed/part_004`) -/

/-- `moveTodoByOffset` (`src/unnamed/part_004` lines 599-616): index of the
active id, offset applied, out-of-range target is a no-op (`moved` stays
`false`), otherwise `arrayMove` + renormalize. -/
def moveTodoByOffset (items : List TodoRecord) (activeId : String)
    (offset : Int) : List TodoRecord × Bool :=
  match findIdxById items activeId with
  | none => (items, false)
  | some fromIndex =>
    let toIndex : Int := (fromIndex : Int) + offset
    if toIndex < 0 ∨ (items.length : Int) ≤ toIndex then (items, false)
    else (normalizePositions (arrayMove items fromIndex toIndex.toNat), true)

/-! ### Hierarchy engine: sibling-scoped move (`src/unnamed/part_005`) -/

def existsId (items : List TodoRecord) (id : String) : Bool :=
  (findById items id).isSome

/-- `parentKey` from `reorderBySiblingMove` (`src/unnamed/part_005` lines
91-92): a dangling parent reference counts as top-level. -/
def parentKey (items : List TodoRecord) (t : TodoRecord) : Option String :=
  match t.parent_id with
  | some p => if existsId items p then some p else none
  | none => none

/-- The sibling group of a key. The source builds `childrenByParent` by
pushing the items in iteration order, so the group of a key holds exactly
the items with that `parentKey`, in list order. -/
def siblingsOf (items : List TodoRecord) (k : Option String) :
    List TodoRecord :=
  items.filter (fun t => parentKey items t = k)

/-- The recursive `visit` of `reorderBySiblingMove` (lines 129-140), with
explicit fuel standing for the implicit bound given by the growth of
`ordered` (a child already in `ordered` is skipped). -/
def visitF (sibs : Option String → List TodoRecord) :
    Nat → Option String → List TodoRecord → List TodoRecord
  | 0, _, ordered => ordered
  | fuel + 1, key, ordered =>
    (sibs key).foldl
      (fun acc child =>
        if acc.any (fun t => t.id = child.id) then acc
        else visitF sibs fuel (some child.id) (acc ++ [child]))
      ordered

/-- `reorderBySiblingMove` (`src/unnamed/part_005` lines 85-151): move the
active item one place inside its sibling group, rebuild the flat list in
pre-order and renormalize; `null` when the group has no neighbour in that
direction. -/
def reorderBySiblingMove (items : List TodoRecord) (activeId : String)
    (direction : Int) : Option (List TodoRecord) :=
  match findById items activeId with
  | none => none
  | some active =>
    let k := parentKey items active
    let siblings := siblingsOf items k
    match findIdxById siblings activeId with
    | none => none
    | some currentIndex =>
      let nextIndex : Int := (currentIndex : Int) + direction
      if nextIndex < 0 ∨ (siblings.length : Int) ≤ nextIndex then none
      else
        match siblings[currentIndex]? with
        | none => none
        | some moved =>
          let reordered := insertAt (removeAt siblings currentIndex)
            nextIndex.toNat moved
          let sibs := fun key =>
            if key = k then reordered else siblingsOf items key
          let ordered := visitF sibs (items.length + 2) none []
          let final :=
            if ordered.length ≠ items.length then
              ordered ++ items.filter
                (fun t => ¬ ordered.any (fun u => u.id = t.id))
            else ordered
          some (normalizePositions final)

/-! ### Selection blocks (`src/unnamed/part_004` lines 1593-1659) -/

/-- `compacted.splice(anchorIndex, 0, ...block)` with splice clamping. -/
def insertAllAt (l : List α) (n : Nat) (block : List α) : List α :=
  l.take n ++ block ++ l.drop n

/-- `todo.id !== items[index]?.id` somewhere (order-change check of
`compactAndMoveSelection`, lines 1622 and 1631). -/
def idsChanged (next items : List TodoRecord) : Bool :=
  someWithIndex
    (fun index todo =>
      match items[index]? with
      | some prev => todo.id ≠ prev.id
      | none => true)
    0 next

/-- Order-or-parent change check of `nestFocusedSelectionIntoPrevious`
(lines 2166-2171). -/
def idsOrParentChanged (next items : List TodoRecord) : Bool :=
  someWithIndex
    (fun index todo =>
      match items[index]? with
      | some prev => todo.id ≠ prev.id ∨ todo.parent_id ≠ prev.parent_id
      | none => true)
    0 next

/-- `compactSelectionAtAnchor` (`src/unnamed/part_004` lines 1635-1659):
gather the selection block (or the active item), remove it and re-insert it
contiguously at the anchor index. -/
def compactSelectionAtAnchor (items : List TodoRecord)
    (selectedIds : List String) (activeId : String) :
    Option (List TodoRecord × List TodoRecord × Nat) :=
  let orderedSelected := items.filter (fun t => t.id ∈ selectedIds)
  let block :=
    if orderedSelected = [] then items.filter (fun t => t.id = activeId)
    else orderedSelected
  match block with
  | [] => none
  | b0 :: bs =>
    match findIdxById items b0.id with
    | none => none
    | some anchorIndex =>
      let blockIds := (b0 :: bs).map TodoRecord.id
      let stationary := items.filter (fun t => t.id ∉ blockIds)
      some (insertAllAt stationary anchorIndex (b0 :: bs), b0 :: bs,
        anchorIndex)

/-- `compactAndMoveSelection` (`src/unnamed/part_004` lines 1593-1633).
The TS `offset` parameter has literal type `-1 | 1`; `Int.toNat` on the new
start index is exact for those values because the move is guarded. -/
def compactAndMoveSelection (items : List TodoRecord)
    (selectedIds : List String) (activeId : String) (offset : Int) :
    List TodoRecord × Bool :=
  let orderedSelected := items.filter (fun t => t.id ∈ selectedIds)
  let block :=
    if orderedSelected = [] then items.filter (fun t => t.id = activeId)
    else orderedSelected
  match block with
  | [] => (items, false)
  | b0 :: bs =>
    match findIdxById items b0.id with
    | none => (items, false)
    | some anchorIndex =>
      let blockIds := (b0 :: bs).map TodoRecord.id
      let stationary := items.filter (fun t => t.id ∉ blockIds)
      let compacted := insertAllAt stationary anchorIndex (b0 :: bs)
      let canMoveUp := offset < 0 ∧ 0 < anchorIndex
      let canMoveDown :=
        0 < offset ∧ anchorIndex + (b0 :: bs).length < compacted.length
      if ¬canMoveUp ∧ ¬canMoveDown then
        let changed := idsChanged compacted items
        (if changed then normalizePositions compacted else items, changed)
      else
        let withoutBlock := compacted.filter (fun t => t.id ∉ blockIds)
        let nextStart := ((anchorIndex : Int) + offset).toNat
        let moved := insertAllAt withoutBlock nextStart (b0 :: bs)
        let changed := idsChanged moved items
        (if changed then normalizePositions moved else items, changed)

/-! ### Parent repair after reorder (`src/unnamed/part_004` lines 1661-1701) -/

/-- In-place `todo.parent_id = …` on the record with the given id. -/
def setParentInList (state : List TodoRecord) (id : String)
    (p : Option String) : List TodoRecord :=
  state.map (fun t => if t.id = id then { t with parent_id := p } else t)

/-- The `while (todo.parent_id)` loop of `normalizeMovedParentsAfterReorder`:
walk the (current) parent chain until the parent sits at an earlier index,
dropping to the grandparent otherwise, or to `null` when the parent record is
absent. `idx` is the index map computed once from the input list. Explicit
fuel: the source loop does not terminate on parent cycles placed after the
item, and no state is committed in that case. -/
def fixParentLoop (idx : String → Option Nat) :
    Nat → List TodoRecord → String → Bool → Option (List TodoRecord × Bool)
  | 0, _, _, _ => none
  | fuel + 1, state, movedId, changed =>
    match findById state movedId with
    | none => some (state, changed)
    | some todo =>
      match todo.parent_id with
      | none => some (state, changed)
      | some pid =>
        match findById state pid with
        | none => some (setParentInList state movedId none, true)
        | some parent =>
          match idx pid, idx movedId with
          | some pIdx, some tIdx =>
            if pIdx < tIdx then some (state, changed)
            else
              fixParentLoop idx fuel
                (setParentInList state movedId parent.parent_id) movedId true
          | _, _ =>
            fixParentLoop idx fuel
              (setParentInList state movedId parent.parent_id) movedId true

/-- The `for (const movedId of movedIds)` loop, threading the mutated list
and accumulating `parentUpdates`. -/
def fixMovedParents (idx : String → Option Nat) (fuel : Nat) :
    List TodoRecord → List String → List (String × Option String) →
    Option (List TodoRecord × List (String × Option String))
  | state, [], acc => some (state, acc)
  | state, m :: ms, acc =>
    match findById state m with
    | none => fixMovedParents idx fuel state ms acc
    | some _ =>
      match fixParentLoop idx fuel state m false with
      | none => none
      | some (state', changed) =>
        let acc' :=
          if changed then
            acc ++ [(m, (findById state' m).bind TodoRecord.parent_id)]
          else acc
        fixMovedParents idx fuel state' ms acc'

/-- `normalizeMovedParentsAfterReorder` (`src/unnamed/part_004` lines
1661-1701), with explicit loop fuel (`none` stands for the source's
non-terminating run, which commits nothing). -/
def normalizeMovedParentsAfterReorder (items : List TodoRecord)
    (movedIds : List String) (fuel : Nat) :
    Option (List TodoRecord × List (String × Option String)) :=
  fixMovedParents (fun s => findIdxById items s) fuel items movedIds []

/-! ### Nest / unnest (`src/unnamed/part_004` lines 2116-2263) -/

/-- Pure core of `nestFocusedSelectionIntoPrevious` (lines 2116-2197): the
`next` list committed via `setTodos` and the `{id, parent_id}` pairs sent to
`updateTodo`; `none` on any of the early returns (empty block, block at the
top, no preceding item, nothing changed). -/
def nestComputeNext (items : List TodoRecord) (selectedIds : List String)
    (activeId : String) :
    Option (List TodoRecord × List (String × Option String)) :=
  match compactSelectionAtAnchor items selectedIds activeId with
  | none => none
  | some (compacted, block, anchorIndex) =>
    if anchorIndex = 0 then none
    else
      match compacted[anchorIndex - 1]? with
      | none => none
      | some parent =>
        let blockIds := block.map TodoRecord.id
        let parentLevelId := parent.parent_id
        let shouldNestIntoParent :=
          parentLevelId.isSome
            && block.all (fun t => t.parent_id = parentLevelId)
        let nextParentIdForBlock : Option String :=
          match parentLevelId with
          | some pl => if shouldNestIntoParent then some parent.id else some pl
          | none => some parent.id
        let next := normalizePositions (compacted.map (fun t =>
          if t.id ∈ blockIds then { t with parent_id := nextParentIdForBlock }
          else t))
        if idsOrParentChanged next items then
          some (next, blockIds.map (fun bid =>
            (bid, (findById next bid).bind TodoRecord.parent_id)))
        else none

/-- `updateMap.has(todo.id) ? {...todo, parent_id: updateMap.get(todo.id) ?? null} : todo`
(lines 2238-2243): apply the computed parent updates to one record. -/
def applyParentUpdates (upd : List (String × Option String))
    (v : TodoRecord) : TodoRecord :=
  match upd.find? (fun q => q.1 = v.id) with
  | some q => { v with parent_id := q.2 }
  | none => v

/-- Pure core of `unnestFocusedSelectionOneLevel` (lines 2199-2263): each
target's parent becomes its parent's parent (or `null` when the parent
record is absent); `none` when no update results. -/
def unnestComputeNext (items : List TodoRecord) (selectedIds : List String)
    (activeId : String) :
    Option (List TodoRecord × List (String × Option String)) :=
  let targetIds :=
    if selectedIds ≠ [] ∧ activeId ∈ selectedIds then selectedIds
    else [activeId]
  let updates := targetIds.filterMap (fun tid =>
    match findById items tid with
    | none => none
    | some todo =>
      match todo.parent_id with
      | none => none
      | some pid =>
        let nextParentId :=
          match findById items pid with
          | some parent => parent.parent_id
          | none => none
        if nextParentId = some pid then none
        else some (tid, nextParentId))
  if updates = [] then none
  else some (items.map (applyParentUpdates updates), updates)

/-! ### Bulk delete (`src/unnamed/part_004` lines 2265-2325 and
`src/unnamed/part_005` lines 196-239) -/

/-- Pure core of `deleteFocusedSelection` (`src/unnamed/part_004`): dedup of
the explicit selection (or the active id), filter them out, renormalize. -/
def deleteFocusedCompute (items : List TodoRecord)
    (selectedIds : List String) (activeId : String) :
    Option (List TodoRecord × List String) :=
  let targetIds := jsDedup
    (if selectedIds ≠ [] ∧ activeId ∈ selectedIds then selectedIds
     else [activeId])
  if targetIds = [] then none
  else
    some (normalizePositions (items.filter (fun t => t.id ∉ targetIds)),
      targetIds)

/-- Pure core of `handleDeleteSelection` (`src/unnamed/part_005`):
`"__new_task__"` is the pseudo-id of the add row, never a deletable target. -/
def deleteSelectionCompute (items : List TodoRecord)
    (selectedIds : List String) (activeTodoId : Option String) :
    Option (List TodoRecord × List String) :=
  let targetIds :=
    if selectedIds ≠ [] then selectedIds
    else
      match activeTodoId with
      | some a => if a = "__new_task__" then [] else [a]
      | none => []
  if targetIds = [] then none
  else
    some (normalizePositions (items.filter (fun t => t.id ∉ targetIds)),
      targetIds)

/-! ### Title-edit commit (`saveEdit` variants) -/

/-- The UI state a `saveEdit` handler reads and writes. -/
structure EditState where
  todos : List TodoRecord
  editingId : Option String
  editingTitle : String
  busyId : Option String
  error : Option String
deriving DecidableEq, Repr

/-- Network calls a `saveEdit` run issues. -/
inductive RestCall
  | patchTitle (id title : String)
  | deleteRow (id : String)
deriving DecidableEq, Repr

/-- `previous.map(item => item.id === updated.id ? updated : item)`. -/
def applyUpdated (todos : List TodoRecord) (updated : TodoRecord) :
    List TodoRecord :=
  todos.map (fun item => if item.id = updated.id then updated else item)

/-- `saveEdit` of `src/components/todo-app.tsx` lines 221-249 (textually the
same in `src/unnamed/part_004` lines 177-209 and 1013-1045): an empty trimmed
title sets the validation error and returns with the edit still open and no
network call. -/
def saveEditFlat (env : Bool)
    (netUpdate : String → String → Except String TodoRecord)
    (s : EditState) : EditState × List RestCall :=
  if ¬env then (s, [])
  else
    match s.editingId with
    | none => (s, [])
    | some eid =>
      if s.busyId.isSome then (s, [])
      else
        let title := jsTrim s.editingTitle
        if title = "" then
          ({ s with error := some "Todo title cannot be empty." }, [])
        else
          match netUpdate eid title with
          | .ok updated =>
            ({ s with
                todos := applyUpdated s.todos updated,
                editingId := none, editingTitle := "", error := none,
                busyId := none }, [RestCall.patchTitle eid title])
          | .error e =>
            ({ s with error := some e, busyId := none },
              [RestCall.patchTitle eid title])

/-- `saveEdit` of `src/unnamed/part_005` lines 834-861 (hierarchy variant):
an empty trimmed title returns silently — no error message, no mutation,
no network call, edit still open. -/
def saveEditHierarchy (env : Bool)
    (netUpdate : String → String → Except String TodoRecord)
    (s : EditState) : EditState × List RestCall :=
  if ¬env then (s, [])
  else
    match s.editingId with
    | none => (s, [])
    | some eid =>
      if s.busyId.isSome then (s, [])
      else
        let title := jsTrim s.editingTitle
        if title = "" then (s, [])
        else
          match netUpdate eid title with
          | .ok updated =>
            ({ s with
                todos := applyUpdated s.todos updated,
                editingId := none, editingTitle := "", error := none,
                busyId := none }, [RestCall.patchTitle eid title])
          | .error e =>
            ({ s with error := some e, busyId := none },
              [RestCall.patchTitle eid title])

/-- `saveEdit` of `src/unnamed/part_004` lines 2392-2437 (delete-on-empty
variant): an empty trimmed title deletes the edited row and renormalizes the
remaining positions; on delete failure the error is surfaced and the edit
stays open. -/
def saveEditDeleteOnEmpty (env : Bool)
    (netUpdate : String → String → Except String TodoRecord)
    (netDelete : String → Except String Unit)
    (s : EditState) : EditState × List RestCall :=
  if ¬env then (s, [])
  else
    match s.editingId with
    | none => (s, [])
    | some eid =>
      if s.busyId.isSome then (s, [])
      else
        let title := jsTrim s.editingTitle
        if title = "" then
          match netDelete eid with
          | .ok _ =>
            ({ s with
                todos := normalizePositions
                  (s.todos.filter (fun t => t.id ≠ eid)),
                editingId := none, editingTitle := "", error := none,
                busyId := none }, [RestCall.deleteRow eid])
          | .error e =>
            ({ s with error := some e, busyId := none },
              [RestCall.deleteRow eid])
        else
          match netUpdate eid title with
          | .ok updated =>
            ({ s with
                todos := applyUpdated s.todos updated,
                editingId := none, editingTitle := "", error := none,
                busyId := none }, [RestCall.patchTitle eid title])
          | .error e =>
            ({ s with error := some e, busyId := none },
              [RestCall.patchTitle eid title])

/-! ### Record store client (`src/unnamed/part_003`) -/

/-- The module-level capability flags (`supportsPositionColumn`,
`supportsParentColumn`, lines 20-21); `none` embeds the initial `null`. -/
structure RestFlags where
  supportsPositionColumn : Option Bool
  supportsParentColumn : Option Bool
deriving DecidableEq, Repr

/-- `isPositioningEnabled` (lines 206-208). -/
def isPositioningEnabled (flags : RestFlags) : Bool :=
  flags.supportsPositionColumn ≠ some false

/-- `Promise.all`: the first rejection (in dispatch order) if any. -/
def firstError : List (Except String Unit) → Option String
  | [] => none
  | .error e :: _ => some e
  | .ok _ :: rs => firstError rs

/-- The `PATCH …{position: index}` pairs `updateTodoPositions` (lines
262-282) issues: one per id, position equal to its index; none at all when
the position column is unsupported. -/
def updateTodoPositionsCalls (flags : RestFlags) (orderedIds : List String) :
    List (String × Nat) :=
  if flags.supportsPositionColumn = some false then []
  else withIndices 0 orderedIds

/-- Outcome of `updateTodoPositions` given the per-call network outcomes:
`Promise.all` rejects as soon as any item-level call rejects. -/
def updateTodoPositionsResult (flags : RestFlags)
    (net : String → Nat → Except String Unit) (orderedIds : List String) :
    Except String Unit :=
  if flags.supportsPositionColumn = some false then .ok ()
  else
    match firstError ((withIndices 0 orderedIds).map
        (fun p => net p.1 p.2)) with
    | some e => .error e
    | none => .ok ()

/-- UI state read and written by the drag release handler. -/
structure DragUIState where
  todos : List TodoRecord
  error : Option String
  isSavingOrder : Bool
deriving DecidableEq, Repr

/-- The `pointermove` reorder step of `startDrag`
(`src/components/todo-app.tsx` lines 269-293): `true` iff `moved` was set. -/
def dragMoveOver (items : List TodoRecord) (activeId overId : String) :
    List TodoRecord × Bool :=
  if overId = activeId then (items, false)
  else
    match findIdxById items activeId, findIdxById items overId with
    | some fromIndex, some toIndex =>
      if fromIndex = toIndex then (items, false)
      else (normalizePositions (arrayMove items fromIndex toIndex), true)
    | _, _ => (items, false)

/-- `handlePointerUp` of `startDrag` (`src/components/todo-app.tsx` lines
304-330): persists the current order; on failure the error message is set
and `isSavingOrder` cleared — the `todos` list is left as the drag put it
(there is no snapshot restore in this handler). -/
def handlePointerUpModel (flags : RestFlags)
    (net : String → Nat → Except String Unit)
    (moved positioningAvailable : Bool) (ui : DragUIState) : DragUIState :=
  if ¬moved then ui
  else if ¬positioningAvailable then ui
  else
    match updateTodoPositionsResult flags net
        (ui.todos.map TodoRecord.id) with
    | .ok _ => { ui with isSavingOrder := false }
    | .error e => { ui with error := some e, isSavingOrder := false }

/-! ### `listTodos` capability probing (`src/unnamed/part_003` lines 82-179) -/

/-- The shape of a PostgREST error message, as far as `listTodos` inspects
it: `fallbackReason.toLowerCase().includes("parent_id" | "position" |
"column" | "does not exist")` are embedded as four flags. -/
structure StoreErrMsg where
  mentionsParentId : Bool
  mentionsPosition : Bool
  mentionsColumn : Bool
  mentionsDoesNotExist : Bool
deriving DecidableEq, Repr

/-- A row as the remote store returns it (`position` and `parent_id` are the
optional columns). -/
structure ServerRow where
  id : String
  title : String
  is_completed : Bool
  position : Option Int
  parent_id : Option String
  created_at : String
  updated_at : String
deriving DecidableEq, Repr

/-- The three column sets `listTodos` may request. -/
inductive SelectCols
  | positionedColumns
  | positionedNoParentColumns
  | baseColumns
deriving DecidableEq, Repr

def selHasParent : SelectCols → Bool
  | .positionedColumns => true
  | _ => false

def selHasPosition : SelectCols → Bool
  | .baseColumns => false
  | _ => true

structure RemoteStore where
  rows : List ServerRow
  hasPositionColumn : Bool
  hasParentColumn : Bool
deriving DecidableEq, Repr

/-- Model of the external store (spec §6): a select naming a column missing
from the schema fails with a message naming that column (`parent_id`
precedes `position` in the select strings, so it is reported first); a valid
select returns the rows in the requested order. -/
def serverFetch (store : RemoteStore) (sel : SelectCols) :
    Except StoreErrMsg (List ServerRow) :=
  if selHasParent sel && !store.hasParentColumn then
    .error { mentionsParentId := true, mentionsPosition := false,
             mentionsColumn := true, mentionsDoesNotExist := true }
  else if selHasPosition sel && !store.hasPositionColumn then
    .error { mentionsParentId := false, mentionsPosition := true,
             mentionsColumn := true, mentionsDoesNotExist := true }
  else .ok store.rows

/-- `rows.map((row, index) => ({...row, position: row.position ?? index}))`
(line 102). -/
def rowToRecordFull (p : ServerRow × Nat) : TodoRecord :=
  { id := p.1.id, title := p.1.title, is_completed := p.1.is_completed,
    position := p.1.position.getD (p.2 : Int), parent_id := p.1.parent_id,
    created_at := p.1.created_at, updated_at := p.1.updated_at }

/-- Lines 139-143: `parent_id: null, position: row.position ?? index`. -/
def rowToRecordNoParent (p : ServerRow × Nat) : TodoRecord :=
  { id := p.1.id, title := p.1.title, is_completed := p.1.is_completed,
    position := p.1.position.getD (p.2 : Int), parent_id := none,
    created_at := p.1.created_at, updated_at := p.1.updated_at }

/-- Lines 174-178: `parent_id: null, position: index`. -/
def rowToRecordBase (p : ServerRow × Nat) : TodoRecord :=
  { id := p.1.id, title := p.1.title, is_completed := p.1.is_completed,
    position := (p.2 : Int), parent_id := none,
    created_at := p.1.created_at, updated_at := p.1.updated_at }

/-- `listTodos` (lines 82-179): probe with the full column set, classify the
failure message, retry without `parent_id` and/or `position`, and set the
capability flags only on a successful fetch. Returns the rows and the flag
state it leaves behind. -/
def listTodosModel (store : RemoteStore) :
    Except StoreErrMsg (List TodoRecord × RestFlags) :=
  match serverFetch store .positionedColumns with
  | .ok rows =>
    .ok ((withIndices 0 rows).map rowToRecordFull,
      { supportsPositionColumn := some true,
        supportsParentColumn := some true })
  | .error msg =>
    let isMissingParentColumn :=
      msg.mentionsParentId && (msg.mentionsColumn || msg.mentionsDoesNotExist)
    if isMissingParentColumn then
      match serverFetch store .positionedNoParentColumns with
      | .error e => .error e
      | .ok rows =>
        .ok ((withIndices 0 rows).map rowToRecordNoParent,
          { supportsPositionColumn := some true,
            supportsParentColumn := some false })
    else
      let missingPositionColumn :=
        msg.mentionsPosition && (msg.mentionsColumn || msg.mentionsDoesNotExist)
      if !missingPositionColumn then .error msg
      else
        match serverFetch store .baseColumns with
        | .error e => .error e
        | .ok rows =>
          .ok ((withIndices 0 rows).map rowToRecordBase,
            { supportsPositionColumn := some false,
              supportsParentColumn := some false })

/-- The five client operations of the store module. -/
inductive ClientOp
  | listOp
  | createOp
  | updateOp
  | deleteOp
  | repositionOp
deriving DecidableEq, Repr

/-- Effect of each operation on the module-level capability flags.
`createTodo`, `updateTodo`, `deleteTodo` and `updateTodoPositions`
(`src/unnamed/part_003` lines 210-293) read the flags (for column selection
and payload shape) but never assign them; only `listTodos` assigns them, and
only after a successful fetch (a failing run throws at `throwOnError` before
any assignment, leaving the flags as they were). -/
def flagsAfterOp (store : RemoteStore) (flags : RestFlags) :
    ClientOp → RestFlags
  | .listOp =>
    match listTodosModel store with
    | .ok (_, f) => f
    | .error _ => flags
  | .createOp => flags
  | .updateOp => flags
  | .deleteOp => flags
  | .repositionOp => flags

def flagsAfterOps (store : RemoteStore) (flags : RestFlags)
    (ops : List ClientOp) : RestFlags :=
  ops.foldl (flagsAfterOp store) flags

/-! ### Depth computation (`src/unnamed/part_005` lines 51-83 and
`src/unnamed/part_004` lines 1743-1778) -/

/-- `Map.get` on an association list where later `set`s are consed in
front. -/
def cacheGet (cache : List (String × Nat)) (k : String) : Option Nat :=
  (cache.find? (fun p => p.1 = k)).map (fun p => p.2)

/-- `getDepth` of `buildDepthMap` (`src/unnamed/part_005` lines 55-76), with
the memo cache threaded explicitly and fuel standing for the recursion
bounded by the growth of `seen`. -/
def getDepthF (items : List TodoRecord) :
    Nat → String → List String → List (String × Nat) →
    Option (Nat × List (String × Nat))
  | 0, _, _, _ => none
  | fuel + 1, id, seen, cache =>
    match cacheGet cache id with
    | some d => some (d, cache)
    | none =>
      match findById items id with
      | none => some (0, (id, 0) :: cache)
      | some item =>
        match item.parent_id with
        | none => some (0, (id, 0) :: cache)
        | some pid =>
          if id ∈ seen ∨ (findById items pid).isNone then
            some (0, (id, 0) :: cache)
          else
            match getDepthF items fuel pid (id :: seen) cache with
            | none => none
            | some (d, cache') => some (d + 1, (id, d + 1) :: cache')

/-- The `items.forEach` of `buildDepthMap` (lines 78-81), accumulating the
`depths` record. -/
def buildDepthGo (items : List TodoRecord) (fuel : Nat) :
    List TodoRecord → List (String × Nat) → List (String × Nat) →
    Option (List (String × Nat) × List (String × Nat))
  | [], depths, cache => some (depths, cache)
  | t :: ts, depths, cache =>
    match getDepthF items fuel t.id [] cache with
    | none => none
    | some (d, cache') =>
      buildDepthGo items fuel ts (depths ++ [(t.id, d)]) cache'

/-- `buildDepthMap` (`src/unnamed/part_005` lines 51-83), run with fuel
`items.length + 1` (proved sufficient below). -/
def buildDepthMap (items : List TodoRecord) : Option (List (String × Nat)) :=
  (buildDepthGo items (items.length + 1) items [] []).map (fun p => p.1)

/-- The `while (current?.parent_id && byId.has(current.parent_id))` walk of
`depthByTodoId` (`src/unnamed/part_004` lines 1754-1762), with fuel. -/
def depthWalkF (items : List TodoRecord) :
    Nat → Option TodoRecord → List String → Nat → Option Nat
  | 0, _, _, _ => none
  | fuel + 1, current, seen, depth =>
    match current with
    | none => some depth
    | some c =>
      match c.parent_id with
      | none => some depth
      | some pid =>
        if (findById items pid).isNone then some depth
        else if pid ∈ seen then some depth
        else depthWalkF items fuel (findById items pid) (pid :: seen)
          (depth + 1)

/-- `depthFor` of `depthByTodoId` (`src/unnamed/part_004` lines 1747-1771):
memo check, parent walk, one-level fallback when the row keeps an unresolved
`parent_id`, display bound of 8. -/
def depthForF (items : List TodoRecord) (fuel : Nat)
    (memo : List (String × Nat)) (todoId : String) :
    Option (Nat × List (String × Nat)) :=
  match cacheGet memo todoId with
  | some d => some (d, memo)
  | none =>
    match depthWalkF items fuel (findById items todoId) [] 0 with
    | none => none
    | some depth =>
      let depth' :=
        if depth = 0 ∧ ((findById items todoId).bind TodoRecord.parent_id).isSome
        then 1 else depth
      let bounded := min depth' 8
      some (bounded, (todoId, bounded) :: memo)

/-- The `todos.forEach` of `depthByTodoId` (lines 1773-1776). -/
def depthByIdGo (items : List TodoRecord) (fuel : Nat) :
    List TodoRecord → List (String × Nat) → List (String × Nat) →
    Option (List (String × Nat) × List (String × Nat))
  | [], depths, memo => some (depths, memo)
  | t :: ts, depths, memo =>
    match depthForF items fuel memo t.id with
    | none => none
    | some (d, memo') =>
      depthByIdGo items fuel ts (depths ++ [(t.id, d)]) memo'

/-- `depthByTodoId` (`src/unnamed/part_004` lines 1743-1778), run with fuel
`items.length + 1` (proved sufficient below). -/
def depthByTodoId (items : List TodoRecord) : Option (List (String × Nat)) :=
  (depthByIdGo items (items.length + 1) items [] []).map (fun p => p.1)

/-- Post-condition established by the parent-repair loop for a moved id:
its record's parent is `null` or sits at an earlier index (`idx` is the
index map of the input list). -/
def ParentEarlier (idx : String → Option Nat) (state : List TodoRecord)
    (m : String) : Prop :=
  ∀ t, findById state m = some t →
    t.parent_id = none
    ∨ ∃ p pIdx tIdx, t.parent_id = some p ∧ idx p = some pIdx
        ∧ idx m = some tIdx ∧ pIdx < tIdx

/-- Invariant of the depth memo caches: an entry for a key whose record has
a `null` parent always stores depth 0. -/
def NullZero (items : List TodoRecord) (cache : List (String × Nat)) : Prop :=
  ∀ k d, cacheGet cache k = some d →
    ∀ t, findById items k = some t → t.parent_id = none → d = 0

/-! ### Concrete fixtures used by examples and witnesses -/

def exA : TodoRecord := mkTodo "a" none
def exB : TodoRecord := mkTodo "b" (some "a")
def exC : TodoRecord := mkTodo "c" (some "b")
def exFlatA : TodoRecord := mkTodo "a" none
def exFlatB : TodoRecord := mkTodo "b" none
def exFlatC : TodoRecord := mkTodo "c" none
def exFlatD : TodoRecord := mkTodo "d" (some "b")
def exChain : List TodoRecord := [exA, exB, exC]
def exFlat3 : List TodoRecord := [exFlatA, exFlatB, exFlatC]
def exABCD : List TodoRecord := [exFlatA, exFlatB, exFlatC, exFlatD]

/-- A network that fails exactly on the row with id `"a"`. -/
def exNetFailA : String → Nat → Except String Unit :=
  fun id _ => if id = "a" then .error "network failure for a" else .ok ()

/-- A network function never consulted on the exercised path. -/
def exNetUpdateUnused : String → String → Except String TodoRecord :=
  fun _ _ => .error "unused"

/-- A delete call that always succeeds. -/
def exNetDeleteOk : String → Except String Unit := fun _ => .ok ()

def exRow (id : String) : ServerRow :=
  { id := id, title := id, is_completed := false, position := none,
    parent_id := none, created_at := "", updated_at := "" }

/-- A store whose schema has `parent_id` but lacks `position`. -/
def exStoreNoPosition : RemoteStore :=
  { rows := [exRow "a", exRow "b"], hasPositionColumn := false,
    hasParentColumn := true }

/-- An open edit of `"a"` whose buffer trims to the empty string. -/
def exEditState : EditState :=
  { todos := [mkTodo "a" none], editingId := some "a",
    editingTitle := "   ", busyId := none, error := none }

/-- The UI state at drag release after dragging `"b"` over `"a"`. -/
def exDragUI : DragUIState :=
  { todos := (dragMoveOver exFlat3 "b" "a").1, error := none,
    isSavingOrder := true }

section ListKitLemmas

theorem length_removeAt (l : List α) (i : Nat) (h : i < l.length) :
    (removeAt l i).length = l.length - 1 := by
  induction l generalizing i with
  | nil => simp at h
  | cons x xs ih =>
    cases i with
    | zero => simp [removeAt]
    | succ n =>
      simp only [removeAt, List.length_cons]
      rw [ih n (by simpa using Nat.lt_of_succ_lt_succ h)]
      have : 1 ≤ xs.length := by
        have := Nat.lt_of_succ_lt_succ h
        omega
      omega

theorem length_insertAt (l : List α) (i : Nat) (a : α) (h : i ≤ l.length) :
    (insertAt l i a).length = l.length + 1 := by
  induction l generalizing i with
  | nil =>
    cases i with
    | zero => simp [insertAt]
    | succ n => simp at h
  | cons x xs ih =>
    cases i with
    | zero => simp [insertAt]
    | succ n =>
      simp only [insertAt, List.length_cons]
      rw [ih n (by simpa using Nat.le_of_succ_le_succ h)]

theorem getElem?_insertAt_self (l : List α) (i : Nat) (a : α) (h : i ≤ l.length) :
    (insertAt l i a)[i]? = some a := by
  induction l generalizing i with
  | nil =>
    cases i with
    | zero => simp [insertAt]
    | succ n => simp at h
  | cons x xs ih =>
    cases i with
    | zero => simp [insertAt]
    | succ n =>
      simp only [insertAt, List.getElem?_cons_succ]
      exact ih n (by simpa using Nat.le_of_succ_le_succ h)

theorem removeAt_insertAt (l : List α) (i : Nat) (a : α) (h : i ≤ l.length) :
    removeAt (insertAt l i a) i = l := by
  induction l generalizing i with
  | nil =>
    cases i with
    | zero => simp [insertAt, removeAt]
    | succ n => simp at h
  | cons x xs ih =>
    cases i with
    | zero => simp [insertAt, removeAt]
    | succ n =>
      simp only [insertAt, removeAt, List.cons.injEq, true_and]
      exact ih n (by simpa using Nat.le_of_succ_le_succ h)

theorem insertAt_removeAt (l : List α) (i : Nat) (a : α) (h : l[i]? = some a) :
    insertAt (removeAt l i) i a = l := by
  induction l generalizing i with
  | nil => simp at h
  | cons x xs ih =>
    cases i with
    | zero =>
      simp only [List.getElem?_cons_zero, Option.some.injEq] at h
      simp [insertAt, removeAt, h]
    | succ n =>
      simp only [List.getElem?_cons_succ] at h
      simp only [removeAt, insertAt, List.cons.injEq, true_and]
      exact ih n h

theorem map_insertAt (f : α → β) (l : List α) (i : Nat) (a : α) :
    (insertAt l i a).map f = insertAt (l.map f) i (f a) := by
  induction l generalizing i with
  | nil => cases i <;> simp [insertAt]
  | cons x xs ih =>
    cases i with
    | zero => simp [insertAt]
    | succ n => simp [insertAt, ih]

theorem map_removeAt (f : α → β) (l : List α) (i : Nat) :
    (removeAt l i).map f = removeAt (l.map f) i := by
  induction l generalizing i with
  | nil => simp [removeAt]
  | cons x xs ih =>
    cases i with
    | zero => simp [removeAt]
    | succ n => simp [removeAt, ih]

theorem map_arrayMove (f : α → β) (l : List α) (i j : Nat) :
    (arrayMove l i j).map f = arrayMove (l.map f) i j := by
  unfold arrayMove
  cases h : l[i]? with
  | none => simp [List.getElem?_map, h]
  | some a => simp [List.getElem?_map, h, map_insertAt, map_removeAt]

/-- Moving an element from `i` to `j` and back restores any list. -/
theorem arrayMove_roundtrip (l : List α) (i j : Nat)
    (hi : i < l.length) (hj : j < l.length) :
    arrayMove (arrayMove l i j) j i = l := by
  obtain ⟨a, ha⟩ : ∃ a, l[i]? = some a := by
    exact ⟨l[i], List.getElem?_eq_getElem hi⟩
  have hrem : (removeAt l i).length = l.length - 1 := length_removeAt l i hi
  have hjle : j ≤ (removeAt l i).length := by omega
  have h1 : arrayMove l i j = insertAt (removeAt l i) j a := by
    simp [arrayMove, ha]
  rw [h1]
  have hget : (insertAt (removeAt l i) j a)[j]? = some a :=
    getElem?_insertAt_self _ _ _ hjle
  unfold arrayMove
  rw [hget, removeAt_insertAt _ _ _ hjle]
  exact insertAt_removeAt l i a ha

end ListKitLemmas

section NormalizeLemmas

theorem map_id_normFrom (n : Nat) (l : List TodoRecord) :
    (normFrom n l).map TodoRecord.id = l.map TodoRecord.id := by
  induction l generalizing n with
  | nil => rfl
  | cons t ts ih => simp [normFrom, ih]

theorem map_id_normalizePositions (l : List TodoRecord) :
    (normalizePositions l).map TodoRecord.id = l.map TodoRecord.id :=
  map_id_normFrom 0 l

theorem map_clearPos_normFrom (n : Nat) (l : List TodoRecord) :
    (normFrom n l).map clearPos = l.map clearPos := by
  induction l generalizing n with
  | nil => rfl
  | cons t ts ih => simp [normFrom, clearPos, ih]

theorem length_normFrom (n : Nat) (l : List TodoRecord) :
    (normFrom n l).length = l.length := by
  induction l generalizing n with
  | nil => rfl
  | cons t ts ih => simp [normFrom, ih]

theorem normFrom_congr (n : Nat) (l l' : List TodoRecord)
    (h : l.map clearPos = l'.map clearPos) : normFrom n l = normFrom n l' := by
  induction l generalizing n l' with
  | nil => cases l' <;> simp_all
  | cons t ts ih =>
    cases l' with
    | nil => simp at h
    | cons u us =>
      simp only [List.map_cons, List.cons.injEq] at h
      have hfields : { t with position := (n : Int) } =
          { u with position := (n : Int) } := by
        have := h.1
        cases t; cases u
        simp [clearPos] at this
        simp [this]
      simp [normFrom, hfields, ih (n + 1) us h.2]

theorem normalizePositions_congr (l l' : List TodoRecord)
    (h : l.map clearPos = l'.map clearPos) :
    normalizePositions l = normalizePositions l' :=
  normFrom_congr 0 l l' h

/-- The positions produced by `normFrom n` are `n, n+1, …`. -/
theorem map_position_normFrom (n : Nat) (l : List TodoRecord) :
    (normFrom n l).map TodoRecord.position
      = (List.range' n l.length).map Int.ofNat := by
  induction l generalizing n with
  | nil => rfl
  | cons t ts ih => simp [normFrom, List.range'_succ, ih]

theorem map_position_normalizePositions (l : List TodoRecord) :
    (normalizePositions l).map TodoRecord.position
      = (List.range l.length).map Int.ofNat := by
  rw [normalizePositions, map_position_normFrom, List.range_eq_range']

end NormalizeLemmas

section FindLemmas

/-- `findIndex` on a plain list of ids; `findIdxById` factors through it. -/
def strIdx : List String → String → Option Nat
  | [], _ => none
  | s :: ss, i => if s = i then some 0 else (strIdx ss i).map (· + 1)

theorem findIdxById_eq_strIdx (l : List TodoRecord) (s : String) :
    findIdxById l s = strIdx (l.map TodoRecord.id) s := by
  induction l with
  | nil => rfl
  | cons t ts ih => simp [findIdxById, strIdx, ih]

theorem strIdx_insertAt_self (m : List String) (n : Nat) (s : String)
    (hmem : s ∉ m) (hn : n ≤ m.length) : strIdx (insertAt m n s) s = some n := by
  induction m generalizing n with
  | nil =>
    cases n with
    | zero => simp [insertAt, strIdx]
    | succ k => simp at hn
  | cons x xs ih =>
    cases n with
    | zero => simp [insertAt, strIdx]
    | succ k =>
      have hx : x ≠ s := fun h => hmem (h ▸ List.mem_cons_self x xs)
      simp only [insertAt, strIdx, if_neg hx]
      rw [ih k (fun h => hmem (List.mem_cons_of_mem x h))
        (by simpa using Nat.le_of_succ_le_succ hn)]
      rfl

theorem not_mem_removeAt_of_nodup (m : List String) (i : Nat) (s : String)
    (hnd : m.Nodup) (hget : m[i]? = some s) : s ∉ removeAt m i := by
  induction m generalizing i with
  | nil => simp at hget
  | cons x xs ih =>
    cases i with
    | zero =>
      simp only [List.getElem?_cons_zero, Option.some.injEq] at hget
      subst hget
      simpa [removeAt] using (List.nodup_cons.mp hnd).1
    | succ k =>
      simp only [List.getElem?_cons_succ] at hget
      have hx : x ≠ s := by
        intro h
        subst h
        exact (List.nodup_cons.mp hnd).1 (List.getElem?_mem hget)
      simp only [removeAt, List.mem_cons]
      rintro (h | h)
      · exact hx h.symm
      · exact ih k (List.nodup_cons.mp hnd).2 hget h

theorem findIdxById_sound (l : List TodoRecord) (s : String) (n : Nat)
    (h : findIdxById l s = some n) :
    ∃ t, l[n]? = some t ∧ t.id = s := by
  induction l generalizing n with
  | nil => simp [findIdxById] at h
  | cons t ts ih =>
    by_cases ht : t.id = s
    · simp only [findIdxById, if_pos ht, Option.some.injEq] at h
      subst h
      exact ⟨t, by simp, ht⟩
    · simp only [findIdxById, if_neg ht] at h
      cases hrec : findIdxById ts s with
      | none => rw [hrec] at h; simp at h
      | some k =>
        rw [hrec] at h
        simp only [Option.map_some', Option.some.injEq] at h
        subst h
        obtain ⟨u, hu, hid⟩ := ih k hrec
        exact ⟨u, by simpa using hu, hid⟩

theorem findIdxById_lt_length (l : List TodoRecord) (s : String) (n : Nat)
    (h : findIdxById l s = some n) : n < l.length := by
  obtain ⟨t, ht, _⟩ := findIdxById_sound l s n h
  exact (List.getElem?_eq_some.mp ht).1

theorem findIdxById_of_getElem_nodup (l : List TodoRecord) (k : Nat)
    (t : TodoRecord) (hnd : (l.map TodoRecord.id).Nodup)
    (hget : l[k]? = some t) : findIdxById l t.id = some k := by
  induction l generalizing k with
  | nil => simp at hget
  | cons x xs ih =>
    cases k with
    | zero =>
      simp only [List.getElem?_cons_zero, Option.some.injEq] at hget
      subst hget
      simp [findIdxById]
    | succ m =>
      simp only [List.getElem?_cons_succ] at hget
      have hmem : t.id ∈ xs.map TodoRecord.id :=
        List.mem_map_of_mem TodoRecord.id (List.getElem?_mem hget)
      have hx : x.id ≠ t.id := by
        intro h
        exact (List.nodup_cons.mp hnd).1 (h ▸ hmem)
      simp only [findIdxById, if_neg hx]
      rw [ih m (List.nodup_cons.mp hnd).2 hget]
      rfl

end FindLemmas

section FilterLemmas

theorem map_id_filter_normFrom (n : Nat) (l : List TodoRecord) (p : String → Bool) :
    ((normFrom n l).filter (fun t => p t.id)).map TodoRecord.id
      = (l.filter (fun t => p t.id)).map TodoRecord.id := by
  induction l generalizing n with
  | nil => rfl
  | cons t ts ih =>
    by_cases hp : p t.id
    · simp [normFrom, List.filter_cons, hp, ih]
    · simp [normFrom, List.filter_cons, hp, ih]

theorem filter_insertAt_neg (m : List α) (n : Nat) (a : α) (p : α → Bool)
    (ha : p a = false) : (insertAt m n a).filter p = m.filter p := by
  induction m generalizing n with
  | nil => cases n <;> simp [insertAt, List.filter_cons, ha]
  | cons x xs ih =>
    cases n with
    | zero => simp [insertAt, List.filter_cons, ha]
    | succ k =>
      by_cases hx : p x
      · simp [insertAt, List.filter_cons, hx, ih]
      · simp [insertAt, List.filter_cons, hx, ih]

theorem filter_removeAt_neg (m : List α) (i : Nat) (x : α) (p : α → Bool)
    (hget : m[i]? = some x) (hx : p x = false) :
    (removeAt m i).filter p = m.filter p := by
  induction m generalizing i with
  | nil => simp at hget
  | cons y ys ih =>
    cases i with
    | zero =>
      simp only [List.getElem?_cons_zero, Option.some.injEq] at hget
      subst hget
      simp [removeAt, List.filter_cons, hx]
    | succ k =>
      simp only [List.getElem?_cons_succ] at hget
      by_cases hy : p y
      · simp [removeAt, List.filter_cons, hy, ih k hget]
      · simp [removeAt, List.filter_cons, hy, ih k hget]

theorem filter_ne_of_not_mem (ids : List String) (i : String) (h : i ∉ ids) :
    ids.filter (fun s => s ≠ i) = ids := by
  induction ids with
  | nil => rfl
  | cons x xs ih =>
    have hx : x ≠ i := fun hxi => h (hxi ▸ List.mem_cons_self x xs)
    rw [List.filter_cons_of_pos (by simpa using hx),
      ih (fun hm => h (List.mem_cons_of_mem x hm))]

theorem length_filter_ne_of_nodup (ids : List String) (i : String)
    (hnd : ids.Nodup) (hmem : i ∈ ids) :
    (ids.filter (fun s => s ≠ i)).length = ids.length - 1 := by
  induction ids with
  | nil => simp at hmem
  | cons x xs ih =>
    by_cases hx : x = i
    · subst hx
      rw [List.filter_cons_of_neg (by simp)]
      rw [filter_ne_of_not_mem xs x (List.nodup_cons.mp hnd).1]
      simp
    · have hmem' : i ∈ xs := by
        rcases List.mem_cons.mp hmem with h | h
        · exact absurd h.symm hx
        · exact h
      rw [List.filter_cons_of_pos (by simpa using hx)]
      simp only [List.length_cons]
      rw [ih (List.nodup_cons.mp hnd).2 hmem']
      have : 1 ≤ xs.length := List.length_pos.mpr (List.ne_nil_of_mem hmem')
      omega

theorem map_id_filter_ne (l : List TodoRecord) (i : String) :
    ((l.filter (fun t => t.id ≠ i)).map TodoRecord.id)
      = (l.map TodoRecord.id).filter (fun s => s ≠ i) := by
  induction l with
  | nil => rfl
  | cons t ts ih =>
    by_cases ht : t.id = i
    · rw [List.filter_cons_of_neg (by simpa using ht), List.map_cons,
        List.filter_cons_of_neg (by simpa using ht), ih]
    · rw [List.filter_cons_of_pos (by simpa using ht), List.map_cons,
        List.map_cons, List.filter_cons_of_pos (by simpa using ht), ih]

end FilterLemmas

section ClaimC5

/-- **C5.** For every sequence `S` (with the data model's unique ids) and
every item `i ∈ S`, removing `i` (`handleDelete`: filter by id, then
`normalizePositions`) yields a sequence whose positions are exactly the
contiguous range `0‥len(S)-2` and whose remaining items keep their original
relative order (the id sequence is the original one with `i` filtered
out). -/
theorem c5_remove_renormalizes (items : List TodoRecord) (i : String)
    (hnd : (items.map TodoRecord.id).Nodup)
    (hmem : i ∈ items.map TodoRecord.id) :
    (removeItem items i).map TodoRecord.position
      = (List.range (items.length - 1)).map Int.ofNat
    ∧ (removeItem items i).map TodoRecord.id
      = (items.map TodoRecord.id).filter (fun s => s ≠ i) := by
  have hlen : (items.filter (fun t => t.id ≠ i)).length = items.length - 1 := by
    have h1 := map_id_filter_ne items i
    have h2 := length_filter_ne_of_nodup (items.map TodoRecord.id) i hnd hmem
    calc (items.filter (fun t => t.id ≠ i)).length
        = ((items.filter (fun t => t.id ≠ i)).map TodoRecord.id).length := by
          simp
      _ = ((items.map TodoRecord.id).filter (fun s => s ≠ i)).length := by
          rw [h1]
      _ = (items.map TodoRecord.id).length - 1 := h2
      _ = items.length - 1 := by simp
  refine ⟨?_, ?_⟩
  · rw [removeItem, map_position_normalizePositions, hlen]
  · rw [removeItem, normalizePositions, map_id_normFrom, map_id_filter_ne]

theorem c5_remove_witness :
    (removeItem exFlat3 "b").map TodoRecord.position
      = (List.range (exFlat3.length - 1)).map Int.ofNat
    ∧ (removeItem exFlat3 "b").map TodoRecord.id
      = (exFlat3.map TodoRecord.id).filter (fun s => s ≠ "b") :=
  c5_remove_renormalizes exFlat3 "b" (by decide) (by decide)

end ClaimC5

section ClaimC10

/-- **C10.** For every sequence, id present at index `i` and in-range target
`j`, `moveTo(moveTo(S, id, j), id, i)` restores the original order (the
result is the original sequence up to position renormalization, hence the
identity on any already-normalized sequence). -/
theorem c10_moveTo_roundtrip (items : List TodoRecord) (id : String)
    (i j : Nat) (hnd : (items.map TodoRecord.id).Nodup)
    (hfind : findIdxById items id = some i) (hj : j < items.length) :
    moveTo (moveTo items id j) id i = normalizePositions items := by
  obtain ⟨x, hx, hxid⟩ := findIdxById_sound items id i hfind
  have hi : i < items.length := findIdxById_lt_length items id i hfind
  have hidsx : (items.map TodoRecord.id)[i]? = some id := by
    rw [List.getElem?_map, hx]
    simp [hxid]
  have h1 : moveTo items id j = normalizePositions (arrayMove items i j) := by
    rw [moveTo, hfind]
  have hmapX : (normalizePositions (arrayMove items i j)).map TodoRecord.id
      = insertAt (removeAt (items.map TodoRecord.id) i) j id := by
    rw [map_id_normalizePositions, map_arrayMove]
    simp [arrayMove, hidsx]
  have hnodupRemove : id ∉ removeAt (items.map TodoRecord.id) i :=
    not_mem_removeAt_of_nodup _ i id hnd hidsx
  have hlenRem : (removeAt (items.map TodoRecord.id) i).length
      = items.length - 1 := by
    rw [length_removeAt _ i (by simpa using hi)]
    simp
  have hfind2 :
      findIdxById (normalizePositions (arrayMove items i j)) id = some j := by
    rw [findIdxById_eq_strIdx, hmapX]
    exact strIdx_insertAt_self _ j id hnodupRemove (by omega)
  rw [h1, moveTo, hfind2]
  apply normalizePositions_congr
  rw [map_arrayMove]
  rw [show (normalizePositions (arrayMove items i j)).map clearPos
      = (arrayMove items i j).map clearPos from map_clearPos_normFrom 0 _]
  rw [map_arrayMove]
  have hlenMap : (items.map clearPos).length = items.length := by simp
  exact arrayMove_roundtrip (items.map clearPos) i j (by omega) (by omega)

theorem c10_moveTo_witness :
    moveTo (moveTo exFlat3 "a" 2) "a" 0 = normalizePositions exFlat3 :=
  c10_moveTo_roundtrip exFlat3 "a" 0 2 (by decide) (by decide) (by decide)

end ClaimC10

section ClaimC9

/-- **C9.** Move-by-offset at the boundary is a no-op, not an error: the
first item with offset `-1` and the last item with offset `+1` leave the
sequence unchanged with `moved = false`; `reorderBySiblingMove` returns
`null` whenever the item has no neighbour in that direction within its
sibling group; and when a move does occur, renormalization preserves the
relative order of all untouched items. -/
theorem c9_move_by_offset_edges :
    (∀ (t : TodoRecord) (ts : List TodoRecord),
       moveTodoByOffset (t :: ts) t.id (-1) = (t :: ts, false))
    ∧ (∀ (items : List TodoRecord) (t : TodoRecord),
         (items.map TodoRecord.id).Nodup →
         items[items.length - 1]? = some t →
         moveTodoByOffset items t.id 1 = (items, false))
    ∧ (∀ (items : List TodoRecord) (activeId : String) (active : TodoRecord)
         (ci : Nat) (dir : Int),
         findById items activeId = some active →
         findIdxById (siblingsOf items (parentKey items active)) activeId
           = some ci →
         ((ci : Int) + dir < 0
           ∨ ((siblingsOf items (parentKey items active)).length : Int)
               ≤ (ci : Int) + dir) →
         reorderBySiblingMove items activeId dir = none)
    ∧ (∀ (items : List TodoRecord) (id : String) (off : Int)
         (next : List TodoRecord),
         moveTodoByOffset items id off = (next, true) →
         (next.filter (fun t => t.id ≠ id)).map TodoRecord.id
           = (items.filter (fun t => t.id ≠ id)).map TodoRecord.id) := by
  refine ⟨?_, ?_, ?_, ?_⟩
  · intro t ts
    simp only [moveTodoByOffset, findIdxById, if_pos rfl]
    norm_num
  · intro items t hnd hlast
    have hfind := findIdxById_of_getElem_nodup items _ t hnd hlast
    have hpos : items.length - 1 < items.length :=
      (List.getElem?_eq_some.mp hlast).1
    simp only [moveTodoByOffset, hfind]
    have hcond : (((items.length - 1 : Nat) : Int) + 1 < 0
        ∨ (items.length : Int) ≤ ((items.length - 1 : Nat) : Int) + 1) := by
      right
      omega
    rw [if_pos hcond]
  · intro items activeId active ci dir hfind hsib hcond
    simp only [reorderBySiblingMove, hfind, hsib]
    rw [if_pos hcond]
  · intro items id off next hrun
    cases hf : findIdxById items id with
    | none =>
      rw [moveTodoByOffset, hf] at hrun
      simp at hrun
    | some f =>
      simp only [moveTodoByOffset, hf] at hrun
      by_cases hg : ((f : Int) + off < 0
          ∨ (items.length : Int) ≤ (f : Int) + off)
      · rw [if_pos hg] at hrun
        simp at hrun
      · rw [if_neg hg] at hrun
        have hnext : next
            = normalizePositions (arrayMove items f ((f : Int) + off).toNat) := by
          have := congrArg Prod.fst hrun
          simpa using this.symm
        obtain ⟨x, hx, hxid⟩ := findIdxById_sound items id f hf
        have hpx : (fun t : TodoRecord => decide (t.id ≠ id)) x = false := by
          simp [hxid]
        subst hnext
        rw [normalizePositions, map_id_filter_normFrom 0
          (arrayMove items f ((f : Int) + off).toNat)
          (fun s => decide (s ≠ id))]
        have harr : arrayMove items f ((f : Int) + off).toNat
            = insertAt (removeAt items f) ((f : Int) + off).toNat x := by
          simp [arrayMove, hx]
        rw [harr,
          filter_insertAt_neg (removeAt items f) (((f : Int) + off).toNat) x
            (fun t => decide (t.id ≠ id)) hpx,
          filter_removeAt_neg items f x (fun t => decide (t.id ≠ id)) hx hpx]

theorem c9_move_by_offset_witness :
    moveTodoByOffset exFlat3 "a" (-1) = (exFlat3, false)
    ∧ moveTodoByOffset exFlat3 "c" 1 = (exFlat3, false)
    ∧ reorderBySiblingMove exChain "c" 1 = none
    ∧ ((moveTodoByOffset exFlat3 "b" 1).1.filter
        (fun t => t.id ≠ "b")).map TodoRecord.id
      = (exFlat3.filter (fun t => t.id ≠ "b")).map TodoRecord.id := by
  refine ⟨?_, ?_, ?_, ?_⟩
  · exact c9_move_by_offset_edges.1 exFlatA [exFlatB, exFlatC]
  · exact c9_move_by_offset_edges.2.1 exFlat3 exFlatC (by decide) (by decide)
  · exact c9_move_by_offset_edges.2.2.1 exChain "c" exC 0 1 (by decide)
      (by decide) (by right; decide)
  · exact c9_move_by_offset_edges.2.2.2 exFlat3 "b" 1
      (moveTodoByOffset exFlat3 "b" 1).1 (by decide)

end ClaimC9

section HelperLemmas

theorem map_id_filter_pred (l : List TodoRecord) (p : String → Bool) :
    (l.filter (fun t => p t.id)).map TodoRecord.id
      = (l.map TodoRecord.id).filter p := by
  induction l with
  | nil => rfl
  | cons t ts ih =>
    cases hp : p t.id with
    | true => simp [List.filter_cons, hp, ih]
    | false => simp [List.filter_cons, hp, ih]

theorem getElem?_withIndices (l : List α) (n k : Nat) :
    (withIndices n l)[k]? = (l[k]?).map (fun x => (x, n + k)) := by
  induction l generalizing n k with
  | nil => simp [withIndices]
  | cons x xs ih =>
    cases k with
    | zero => simp [withIndices]
    | succ m =>
      simp only [withIndices, List.getElem?_cons_succ, ih (n + 1) m]
      cases xs[m]? <;> simp [Nat.add_assoc, Nat.add_comm 1 m]

theorem mem_withIndices (l : List α) (n : Nat) (x : α) (j : Nat) :
    (x, j) ∈ withIndices n l ↔ ∃ k, l[k]? = some x ∧ j = n + k := by
  induction l generalizing n with
  | nil => simp [withIndices]
  | cons y ys ih =>
    simp only [withIndices, List.mem_cons, Prod.mk.injEq, ih (n + 1)]
    constructor
    · rintro (⟨rfl, rfl⟩ | ⟨k, hk, rfl⟩)
      · exact ⟨0, by simp⟩
      · exact ⟨k + 1, by simpa using hk, by omega⟩
    · rintro ⟨k, hk, rfl⟩
      cases k with
      | zero =>
        left
        simp only [List.getElem?_cons_zero, Option.some.injEq] at hk
        exact ⟨hk.symm, by omega⟩
      | succ m =>
        right
        exact ⟨m, by simpa using hk, by omega⟩

theorem firstError_eq_none_iff (rs : List (Except String Unit)) :
    firstError rs = none ↔ ∀ r ∈ rs, r = .ok () := by
  induction rs with
  | nil => simp [firstError]
  | cons r rs ih =>
    cases r with
    | error e => simp [firstError]
    | ok u => cases u; simp [firstError, ih]

/-- Shared core of both bulk-delete variants: a committed delete keeps
exactly the non-target ids, in their original order. -/
theorem delete_core_ids (items : List TodoRecord) (T : List String)
    (next : List TodoRecord) (targets : List String)
    (h : (if T = [] then none
          else some (normalizePositions
            (items.filter (fun t => t.id ∉ T)), T))
        = some (next, targets)) :
    next.map TodoRecord.id
      = (items.map TodoRecord.id).filter (fun s => decide (s ∉ targets)) := by
  by_cases hTe : T = []
  · rw [if_pos hTe] at h
    exact absurd h (by simp)
  · rw [if_neg hTe, Option.some.injEq, Prod.mk.injEq] at h
    obtain ⟨h1, h2⟩ := h
    subst h2
    rw [← h1, normalizePositions, map_id_normFrom]
    exact map_id_filter_pred items (fun s => decide (s ∉ T))

theorem updateTodoPositionsResult_ok_iff (flags : RestFlags)
    (net : String → Nat → Except String Unit) (ids : List String)
    (h : flags.supportsPositionColumn ≠ some false) :
    updateTodoPositionsResult flags net ids = .ok ()
      ↔ ∀ p ∈ withIndices 0 ids, net p.1 p.2 = .ok () := by
  have hiff := firstError_eq_none_iff
    ((withIndices 0 ids).map fun p => net p.1 p.2)
  constructor
  · intro hok p hp
    have hnone : firstError ((withIndices 0 ids).map fun p => net p.1 p.2)
        = none := by
      cases hfe : firstError ((withIndices 0 ids).map fun p => net p.1 p.2) with
      | none => rfl
      | some e =>
        rw [updateTodoPositionsResult, if_neg h, hfe] at hok
        exact absurd hok (by simp)
    exact hiff.mp hnone (net p.1 p.2) (List.mem_map_of_mem _ hp)
  · intro hall
    rw [updateTodoPositionsResult, if_neg h]
    have hnone : firstError ((withIndices 0 ids).map fun p => net p.1 p.2)
        = none := by
      apply hiff.mpr
      intro r hr
      obtain ⟨p, hp, rfl⟩ := List.mem_map.mp hr
      exact hall p hp
    rw [hnone]

end HelperLemmas

section ClaimC8

/-- **C8.** Bulk delete removes exactly the explicitly selected ids: from
`[A, B, C, D]` (D a child of B) deleting the selection `{B, C}` yields order
`[A, D]` with positions `[0, 1]`, and the unselected descendant D survives
with its `parent_id` untouched; in general (both the `part_004` and the
`part_005` variant) the resulting id sequence is the original one with
exactly the target ids filtered out, in order. -/
theorem c8_bulk_delete_exact :
    ((deleteFocusedCompute exABCD ["b", "c"] "b").map
        (fun r => (r.1.map TodoRecord.id, r.1.map TodoRecord.position)))
      = some (["a", "d"], [0, 1])
    ∧ ((deleteSelectionCompute exABCD ["b", "c"] (some "b")).map
        (fun r => (r.1.map TodoRecord.id, r.1.map TodoRecord.position)))
      = some (["a", "d"], [0, 1])
    ∧ ((deleteFocusedCompute exABCD ["b", "c"] "b").map
        (fun r => (findById r.1 "d").map TodoRecord.parent_id))
      = some (some (some "b"))
    ∧ (∀ (items : List TodoRecord) (sel : List String) (active : String)
        (next : List TodoRecord) (targets : List String),
        deleteFocusedCompute items sel active = some (next, targets) →
        next.map TodoRecord.id
          = (items.map TodoRecord.id).filter (fun s => decide (s ∉ targets)))
    ∧ (∀ (items : List TodoRecord) (sel : List String)
        (activeTodoId : Option String) (next : List TodoRecord)
        (targets : List String),
        deleteSelectionCompute items sel activeTodoId = some (next, targets) →
        next.map TodoRecord.id
          = (items.map TodoRecord.id).filter
              (fun s => decide (s ∉ targets))) := by
  refine ⟨by decide, by decide, by decide, ?_, ?_⟩
  · intro items sel active next targets h
    simp only [deleteFocusedCompute] at h
    exact delete_core_ids items _ next targets h
  · intro items sel activeTodoId next targets h
    simp only [deleteSelectionCompute] at h
    exact delete_core_ids items _ next targets h

theorem c8_bulk_delete_witness :
    (normalizePositions (exABCD.filter
        (fun t => t.id ∉ (["b", "c"] : List String)))).map TodoRecord.id
      = (exABCD.map TodoRecord.id).filter
          (fun s => decide (s ∉ (["b", "c"] : List String))) :=
  c8_bulk_delete_exact.2.2.2.1 exABCD ["b", "c"] "b"
    (normalizePositions (exABCD.filter
      (fun t => t.id ∉ (["b", "c"] : List String))))
    ["b", "c"] (by decide)

end ClaimC8

section ClaimC7

/-- **C7 counterexample.** In the hierarchy variant
(`src/unnamed/part_005` `saveEdit`), committing an edit whose trimmed title
is empty is NOT rejected with a validation error: the handler returns with
the state untouched — no error message is set (`error` stays `none`), the
edit stays open and no call is issued. This refutes the claim that every
non-delete-on-empty variant rejects with a validation error. -/
theorem c7_counterexample :
    jsTrim exEditState.editingTitle = ""
    ∧ exEditState.editingId = some "a"
    ∧ exEditState.error = none
    ∧ saveEditHierarchy true exNetUpdateUnused exEditState
        = (exEditState, []) := by decide

/-- **C7 (amended).** Committing a title edit whose trimmed text is empty:
in the delete-on-empty variant the item is deleted and the remaining
positions renormalized with no validation error; in the flat variants the
commit is rejected with the validation error message, the edit stays open
and nothing else changes; in the hierarchy variant the commit is rejected
silently — the edit stays open, no state mutation and no network call, but
no validation error message is raised. -/
theorem c7_empty_commit_amended :
    ∀ (netU : String → String → Except String TodoRecord)
      (netD : String → Except String Unit) (s : EditState) (eid : String),
      s.editingId = some eid → s.busyId = none → jsTrim s.editingTitle = "" →
      (saveEditFlat true netU s
         = ({ s with error := some "Todo title cannot be empty." }, []))
      ∧ (saveEditHierarchy true netU s = (s, []))
      ∧ (netD eid = .ok () →
          saveEditDeleteOnEmpty true netU netD s
            = ({ s with
                  todos := normalizePositions
                    (s.todos.filter (fun t => t.id ≠ eid)),
                  editingId := none, editingTitle := "", error := none,
                  busyId := none }, [RestCall.deleteRow eid])) := by
  intro netU netD s eid hEid hBusy hTrim
  refine ⟨?_, ?_, ?_⟩
  · simp [saveEditFlat, hEid, hBusy, hTrim]
  · simp [saveEditHierarchy, hEid, hBusy, hTrim]
  · intro hok
    simp [saveEditDeleteOnEmpty, hEid, hBusy, hTrim, hok]

theorem c7_empty_commit_witness :
    (saveEditFlat true exNetUpdateUnused exEditState
       = ({ exEditState with error := some "Todo title cannot be empty." },
          []))
    ∧ (saveEditHierarchy true exNetUpdateUnused exEditState
        = (exEditState, []))
    ∧ (saveEditDeleteOnEmpty true exNetUpdateUnused exNetDeleteOk exEditState
        = ({ exEditState with
              todos := normalizePositions
                (exEditState.todos.filter (fun t => t.id ≠ "a")),
              editingId := none, editingTitle := "", error := none,
              busyId := none }, [RestCall.deleteRow "a"])) := by
  have h := c7_empty_commit_amended exNetUpdateUnused exNetDeleteOk
    exEditState "a" rfl rfl (by decide)
  exact ⟨h.1, h.2.1, h.2.2 rfl⟩

end ClaimC7

section ClaimC1

/-- **C1 counterexample.** Dragging `"b"` over `"a"` in `[a, b, c]` and
releasing while the network call for `"a"` fails: the batch is reported
failed and the error message surfaced, but the in-memory list stays in the
dragged order `[b, a, c]` — `handlePointerUp` has no snapshot restore, so
the UI does NOT roll back to the pre-reposition order `[a, b, c]`. -/
theorem c1_counterexample :
    (dragMoveOver exFlat3 "b" "a").2 = true
    ∧ (handlePointerUpModel
        { supportsPositionColumn := some true,
          supportsParentColumn := some true }
        exNetFailA true true exDragUI).error = some "network failure for a"
    ∧ (handlePointerUpModel
        { supportsPositionColumn := some true,
          supportsParentColumn := some true }
        exNetFailA true true exDragUI).todos.map TodoRecord.id
      = ["b", "a", "c"]
    ∧ exFlat3.map TodoRecord.id = ["a", "b", "c"] := by decide

/-- **C1 (amended).** `updateTodoPositions` is a trivial no-op success when
the position capability is unsupported; otherwise it issues one position
update per id, setting it to the id's index, and the batch succeeds iff
every individual update succeeds (any failure rejects the whole batch).
On a failed batch the release handler surfaces the error message but keeps
the optimistically reordered in-memory list (no rollback). -/
theorem c1_reposition_amended :
    ∀ (flags : RestFlags) (net : String → Nat → Except String Unit)
      (ids : List String) (ui : DragUIState) (e : String),
      (flags.supportsPositionColumn = some false →
        updateTodoPositionsResult flags net ids = .ok ()
        ∧ updateTodoPositionsCalls flags ids = [])
      ∧ (flags.supportsPositionColumn ≠ some false →
          ∀ (k : Nat) (id : String), ids[k]? = some id →
            (updateTodoPositionsCalls flags ids)[k]? = some (id, k))
      ∧ (flags.supportsPositionColumn ≠ some false →
          (updateTodoPositionsResult flags net ids = .ok ()
            ↔ ∀ (k : Nat) (id : String), ids[k]? = some id →
                net id k = .ok ()))
      ∧ (updateTodoPositionsResult flags net (ui.todos.map TodoRecord.id)
            = .error e →
          handlePointerUpModel flags net true true ui
            = { ui with error := some e, isSavingOrder := false }) := by
  intro flags net ids ui e
  refine ⟨?_, ?_, ?_, ?_⟩
  · intro h
    constructor
    · rw [updateTodoPositionsResult, if_pos h]
    · rw [updateTodoPositionsCalls, if_pos h]
  · intro h k id hk
    rw [updateTodoPositionsCalls, if_neg h, getElem?_withIndices, hk]
    simp
  · intro h
    rw [updateTodoPositionsResult_ok_iff flags net ids h]
    constructor
    · intro hall k id hk
      have hmem : (id, k) ∈ withIndices 0 ids :=
        (mem_withIndices ids 0 id k).mpr ⟨k, hk, by omega⟩
      exact hall (id, k) hmem
    · intro hall p hp
      obtain ⟨k, hk, hj⟩ := (mem_withIndices ids 0 p.1 p.2).mp hp
      have : p.2 = k := by omega
      rw [this]
      exact hall k p.1 hk
  · intro herr
    simp [handlePointerUpModel, herr]

theorem c1_reposition_witness :
    handlePointerUpModel
      { supportsPositionColumn := some true, supportsParentColumn := some true }
      exNetFailA true true exDragUI
      = { exDragUI with
          error := some "network failure for a",
          isSavingOrder := false }
    ∧ updateTodoPositionsResult
        { supportsPositionColumn := some false, supportsParentColumn := none }
        exNetFailA ["x"] = .ok () := by
  refine ⟨?_, ?_⟩
  · exact (c1_reposition_amended
      { supportsPositionColumn := some true, supportsParentColumn := some true }
      exNetFailA [] exDragUI "network failure for a").2.2.2 rfl
  · exact ((c1_reposition_amended
      { supportsPositionColumn := some false, supportsParentColumn := none }
      exNetFailA ["x"] exDragUI "e").1 rfl).1

end ClaimC1

section ClaimC2

theorem listTodosModel_missing_position (store : RemoteStore)
    (hpos : store.hasPositionColumn = false)
    (hpar : store.hasParentColumn = true) :
    listTodosModel store
      = .ok ((withIndices 0 store.rows).map rowToRecordBase,
        { supportsPositionColumn := some false,
          supportsParentColumn := some false }) := by
  simp [listTodosModel, serverFetch, selHasParent, selHasPosition, hpos, hpar]

theorem map_position_rowToRecordBase (rows : List ServerRow) (n : Nat) :
    ((withIndices n rows).map rowToRecordBase).map TodoRecord.position
      = (List.range' n rows.length).map Int.ofNat := by
  induction rows generalizing n with
  | nil => rfl
  | cons r rs ih => simp [withIndices, rowToRecordBase, List.range'_succ, ih]

theorem map_id_rowToRecordBase (rows : List ServerRow) (n : Nat) :
    ((withIndices n rows).map rowToRecordBase).map TodoRecord.id
      = rows.map ServerRow.id := by
  induction rows generalizing n with
  | nil => rfl
  | cons r rs ih => simp [withIndices, rowToRecordBase, ih]

theorem flags_sticky_after_ops (store : RemoteStore)
    (hpos : store.hasPositionColumn = false)
    (hpar : store.hasParentColumn = true) :
    ∀ (ops : List ClientOp) (flags : RestFlags),
      flags.supportsPositionColumn = some false →
      (flagsAfterOps store flags ops).supportsPositionColumn = some false := by
  intro ops
  induction ops with
  | nil => intro flags h; exact h
  | cons op ops ih =>
    intro flags h
    simp only [flagsAfterOps, List.foldl_cons] at *
    cases op with
    | listOp =>
      apply ih
      simp [flagsAfterOp, listTodosModel_missing_position store hpos hpar]
    | createOp => exact ih flags h
    | updateOp => exact ih flags h
    | deleteOp => exact ih flags h
    | repositionOp => exact ih flags h

/-- **C2.** `list()` against a store whose schema lacks the optional
`position` column: the request is retried without that column, the returned
tasks carry positions `0‥n-1` in the order the store returned them, the
session flags are left at `supportsPositionColumn = false` so
`isPositioningEnabled()` returns `false`, and the flag is sticky: no
subsequent client operation (create/update/delete/reposition, or a re-list
against the same store) flips it back. -/
theorem c2_list_missing_position (store : RemoteStore)
    (hpos : store.hasPositionColumn = false)
    (hpar : store.hasParentColumn = true) :
    (listTodosModel store).toOption.map
        (fun r => r.1.map TodoRecord.position)
      = some ((List.range store.rows.length).map Int.ofNat)
    ∧ (listTodosModel store).toOption.map (fun r => r.1.map TodoRecord.id)
      = some (store.rows.map ServerRow.id)
    ∧ (listTodosModel store).toOption.map (fun r => r.2)
      = some { supportsPositionColumn := some false,
               supportsParentColumn := some false }
    ∧ (∀ ops : List ClientOp,
        isPositioningEnabled (flagsAfterOps store
          { supportsPositionColumn := some false,
            supportsParentColumn := some false } ops) = false) := by
  have hlist := listTodosModel_missing_position store hpos hpar
  refine ⟨?_, ?_, ?_, ?_⟩
  · rw [hlist]
    simp [Except.toOption, map_position_rowToRecordBase store.rows 0,
      List.range_eq_range']
  · rw [hlist]
    simp [Except.toOption, map_id_rowToRecordBase store.rows 0]
  · rw [hlist]
    simp [Except.toOption]
  · intro ops
    have := flags_sticky_after_ops store hpos hpar ops
      { supportsPositionColumn := some false,
        supportsParentColumn := some false } rfl
    simp [isPositioningEnabled, this]

theorem c2_list_missing_position_witness :
    (listTodosModel exStoreNoPosition).toOption.map
        (fun r => r.1.map TodoRecord.position)
      = some ((List.range exStoreNoPosition.rows.length).map Int.ofNat)
    ∧ isPositioningEnabled (flagsAfterOps exStoreNoPosition
        { supportsPositionColumn := some false,
          supportsParentColumn := some false }
        [ClientOp.createOp, ClientOp.repositionOp, ClientOp.listOp])
      = false :=
  ⟨(c2_list_missing_position exStoreNoPosition rfl rfl).1,
   (c2_list_missing_position exStoreNoPosition rfl rfl).2.2.2
     [ClientOp.createOp, ClientOp.repositionOp, ClientOp.listOp]⟩

end ClaimC2

section DepthLemmas

theorem findById_sound (l : List TodoRecord) (s : String) (t : TodoRecord)
    (h : findById l s = some t) : t.id = s ∧ t ∈ l := by
  induction l with
  | nil => simp [findById] at h
  | cons x xs ih =>
    by_cases hx : x.id = s
    · simp only [findById, if_pos hx, Option.some.injEq] at h
      subst h
      exact ⟨hx, List.mem_cons_self x xs⟩
    · simp only [findById, if_neg hx] at h
      obtain ⟨h1, h2⟩ := ih h
      exact ⟨h1, List.mem_cons_of_mem x h2⟩

theorem findById_mem (l : List TodoRecord) (s : String) (t : TodoRecord)
    (h : findById l s = some t) : s ∈ l.map TodoRecord.id := by
  obtain ⟨h1, h2⟩ := findById_sound l s t h
  exact h1 ▸ List.mem_map_of_mem TodoRecord.id h2

theorem length_le_of_nodup_subset (seen ids : List String)
    (hnd : seen.Nodup) (hsub : ∀ s ∈ seen, s ∈ ids) :
    seen.length ≤ ids.length := by
  have h1 : seen.toFinset.card = seen.length := List.toFinset_card_of_nodup hnd
  have h2 : seen.toFinset ⊆ ids.toFinset := by
    intro x hx
    simp only [List.mem_toFinset] at *
    exact hsub x hx
  calc seen.length = seen.toFinset.card := h1.symm
    _ ≤ ids.toFinset.card := Finset.card_le_card h2
    _ ≤ ids.length := List.toFinset_card_le ids

theorem cacheGet_cons (k0 : String) (v : Nat) (c : List (String × Nat))
    (k : String) :
    cacheGet ((k0, v) :: c) k = if k0 = k then some v else cacheGet c k := by
  by_cases h : k0 = k <;> simp [cacheGet, List.find?_cons, h]

theorem cacheGet_append_left (l1 l2 : List (String × Nat)) (k : String)
    (h : (cacheGet l1 k).isSome) :
    cacheGet (l1 ++ l2) k = cacheGet l1 k := by
  induction l1 with
  | nil => simp [cacheGet] at h
  | cons p ps ih =>
    obtain ⟨k0, v⟩ := p
    by_cases hk : k0 = k
    · simp [List.cons_append, cacheGet_cons, hk]
    · rw [cacheGet_cons] at h
      rw [if_neg hk] at h
      simp only [List.cons_append, cacheGet_cons, if_neg hk]
      exact ih h

theorem cacheGet_append_right (l1 l2 : List (String × Nat)) (k : String)
    (h : cacheGet l1 k = none) :
    cacheGet (l1 ++ l2) k = cacheGet l2 k := by
  induction l1 with
  | nil => simp
  | cons p ps ih =>
    obtain ⟨k0, v⟩ := p
    rw [cacheGet_cons] at h
    by_cases hk : k0 = k
    · rw [if_pos hk] at h
      simp at h
    · rw [if_neg hk] at h
      simp only [List.cons_append, cacheGet_cons, if_neg hk]
      exact ih h

theorem getDepthF_isSome (items : List TodoRecord) :
    ∀ (fuel : Nat) (seen : List String), seen.Nodup →
      (∀ s ∈ seen, s ∈ items.map TodoRecord.id) →
      items.length + 1 ≤ fuel + seen.length →
      ∀ (id : String) (cache : List (String × Nat)),
        (getDepthF items fuel id seen cache).isSome := by
  intro fuel
  induction fuel with
  | zero =>
    intro seen hnd hsub hle
    exfalso
    have := length_le_of_nodup_subset seen (items.map TodoRecord.id) hnd hsub
    simp at this
    omega
  | succ fuel ih =>
    intro seen hnd hsub hle id cache
    rw [getDepthF]
    split
    next d heqc => simp
    next heqc =>
      split
      next heqf => simp
      next item heqf =>
        split
        next heqp => simp
        next pid heqp =>
          split
          next hguard => simp
          next hguard =>
            push_neg at hguard
            obtain ⟨hid, _⟩ := hguard
            have hmem : id ∈ items.map TodoRecord.id :=
              findById_mem items id item heqf
            have hrec := ih (id :: seen)
              (List.nodup_cons.mpr ⟨hid, hnd⟩)
              (by
                intro s hs
                rcases List.mem_cons.mp hs with rfl | hs
                · exact hmem
                · exact hsub s hs)
              (by simp only [List.length_cons]; omega)
              pid cache
            obtain ⟨r, hr⟩ := Option.isSome_iff_exists.mp hrec
            rw [hr]
            obtain ⟨d, cache'⟩ := r
            simp

theorem getDepthF_null_value (items : List TodoRecord) :
    ∀ (fuel : Nat) (id : String) (seen : List String)
      (cache : List (String × Nat)) (d : Nat) (cache' : List (String × Nat)),
      getDepthF items fuel id seen cache = some (d, cache') →
      NullZero items cache →
      ∀ t, findById items id = some t → t.parent_id = none → d = 0 := by
  intro fuel
  cases fuel with
  | zero => intro id seen cache d cache' h; simp [getDepthF] at h
  | succ fuel =>
    intro id seen cache d cache' h hinv t hf hnone
    rw [getDepthF] at h
    cases hc : cacheGet cache id with
    | some d0 =>
      simp only [hc, Option.some.injEq, Prod.mk.injEq] at h
      obtain ⟨rfl, rfl⟩ := h
      exact hinv id d0 hc t hf hnone
    | none =>
      simp only [hc, hf, hnone, Option.some.injEq, Prod.mk.injEq] at h
      exact h.1.symm

theorem getDepthF_preserves (items : List TodoRecord) :
    ∀ (fuel : Nat) (id : String) (seen : List String)
      (cache : List (String × Nat)) (r : Nat × List (String × Nat)),
      getDepthF items fuel id seen cache = some r →
      NullZero items cache → NullZero items r.2 := by
  intro fuel
  induction fuel with
  | zero => intro id seen cache r h; simp [getDepthF] at h
  | succ fuel ih =>
    intro id seen cache r h hinv
    rw [getDepthF] at h
    cases hc : cacheGet cache id with
    | some d0 =>
      simp only [hc, Option.some.injEq] at h
      rw [← h]
      exact hinv
    | none =>
      cases hf : findById items id with
      | none =>
        simp only [hc, hf, Option.some.injEq] at h
        rw [← h]
        intro k d hk t ht hnone
        rw [cacheGet_cons] at hk
        by_cases hkk : id = k
        · rw [if_pos hkk] at hk
          simpa using hk.symm
        · rw [if_neg hkk] at hk
          exact hinv k d hk t ht hnone
      | some item =>
        cases hp : item.parent_id with
        | none =>
          simp only [hc, hf, hp, Option.some.injEq] at h
          rw [← h]
          intro k d hk t ht hnone
          rw [cacheGet_cons] at hk
          by_cases hkk : id = k
          · rw [if_pos hkk] at hk
            simpa using hk.symm
          · rw [if_neg hkk] at hk
            exact hinv k d hk t ht hnone
        | some pid =>
          simp only [hc, hf, hp] at h
          by_cases hguard : id ∈ seen ∨ (findById items pid).isNone
          · rw [if_pos hguard] at h
            simp only [Option.some.injEq] at h
            rw [← h]
            intro k d hk t ht hnone
            rw [cacheGet_cons] at hk
            by_cases hkk : id = k
            · rw [if_pos hkk] at hk
              simpa using hk.symm
            · rw [if_neg hkk] at hk
              exact hinv k d hk t ht hnone
          · rw [if_neg hguard] at h
            cases hrec : getDepthF items fuel pid (id :: seen) cache with
            | none => rw [hrec] at h; simp at h
            | some r0 =>
              rw [hrec] at h
              obtain ⟨d0, cache0⟩ := r0
              simp only [Option.some.injEq] at h
              rw [← h]
              have hrecInv := ih pid (id :: seen) cache (d0, cache0) hrec hinv
              intro k d hk t ht hnone
              rw [cacheGet_cons] at hk
              by_cases hkk : id = k
              · rw [if_pos hkk] at hk
                exfalso
                subst hkk
                rw [hf] at ht
                injection ht with ht
                subst ht
                rw [hp] at hnone
                exact Option.noConfusion hnone
              · rw [if_neg hkk] at hk
                exact hrecInv k d hk t ht hnone

theorem buildDepthGo_mono (items : List TodoRecord) (fuel : Nat) :
    ∀ (todos : List TodoRecord) (depths cache : List (String × Nat))
      (res resCache : List (String × Nat)),
      buildDepthGo items fuel todos depths cache = some (res, resCache) →
      ∀ k, (cacheGet depths k).isSome → (cacheGet res k).isSome := by
  intro todos
  induction todos with
  | nil =>
    intro depths cache res resCache h k hk
    simp only [buildDepthGo, Option.some.injEq, Prod.mk.injEq] at h
    rw [← h.1]
    exact hk
  | cons t ts ih =>
    intro depths cache res resCache h k hk
    rw [buildDepthGo] at h
    cases hg : getDepthF items fuel t.id [] cache with
    | none => rw [hg] at h; simp at h
    | some r0 =>
      rw [hg] at h
      obtain ⟨d, cache'⟩ := r0
      have := ih (depths ++ [(t.id, d)]) cache' res resCache h k
      apply this
      rw [cacheGet_append_left _ _ _ hk]
      exact hk

theorem buildDepthGo_spec (items : List TodoRecord) (fuel : Nat) :
    ∀ (todos : List TodoRecord) (depths cache : List (String × Nat))
      (res resCache : List (String × Nat)),
      buildDepthGo items fuel todos depths cache = some (res, resCache) →
      NullZero items cache → NullZero items depths →
      NullZero items res
      ∧ (∀ t ∈ todos, (cacheGet res t.id).isSome) := by
  intro todos
  induction todos with
  | nil =>
    intro depths cache res resCache h hc hd
    simp only [buildDepthGo, Option.some.injEq, Prod.mk.injEq] at h
    rw [← h.1]
    exact ⟨hd, by simp⟩
  | cons t ts ih =>
    intro depths cache res resCache h hc hd
    rw [buildDepthGo] at h
    cases hg : getDepthF items fuel t.id [] cache with
    | none => rw [hg] at h; simp at h
    | some r0 =>
      rw [hg] at h
      obtain ⟨d, cache'⟩ := r0
      have hc' : NullZero items cache' :=
        getDepthF_preserves items fuel t.id [] cache (d, cache') hg hc
      have hd' : NullZero items (depths ++ [(t.id, d)]) := by
        intro k dk hk u hu hnone
        cases hdep : cacheGet depths k with
        | some d1 =>
          rw [cacheGet_append_left _ _ _ (by simp [hdep])] at hk
          rw [hdep] at hk
          injection hk with hk
          subst hk
          exact hd k d1 hdep u hu hnone
        | none =>
          rw [cacheGet_append_right _ _ _ hdep] at hk
          rw [cacheGet_cons] at hk
          by_cases hkk : t.id = k
          · rw [if_pos hkk] at hk
            injection hk with hk
            subst hk
            subst hkk
            exact getDepthF_null_value items fuel t.id [] cache d cache' hg
              hc u hu hnone
          · rw [if_neg hkk] at hk
            simp [cacheGet] at hk
      obtain ⟨hres, hmem⟩ := ih (depths ++ [(t.id, d)]) cache' res resCache
        h hc' hd'
      refine ⟨hres, ?_⟩
      intro u hu
      rcases List.mem_cons.mp hu with rfl | hu
      · apply buildDepthGo_mono items fuel ts _ cache' res resCache h
        cases hdep : cacheGet depths u.id with
        | some d1 =>
          rw [cacheGet_append_left _ _ _ (by simp [hdep]), hdep]
          simp
        | none =>
          rw [cacheGet_append_right _ _ _ hdep, cacheGet_cons, if_pos rfl]
          simp
      · exact hmem u hu

end DepthLemmas

section DepthLemmasWalk

theorem depthWalkF_isSome (items : List TodoRecord) :
    ∀ (fuel : Nat) (seen : List String), seen.Nodup →
      (∀ s ∈ seen, s ∈ items.map TodoRecord.id) →
      items.length + 1 ≤ fuel + seen.length →
      ∀ (current : Option TodoRecord) (depth : Nat),
        (depthWalkF items fuel current seen depth).isSome := by
  intro fuel
  induction fuel with
  | zero =>
    intro seen hnd hsub hle
    exfalso
    have := length_le_of_nodup_subset seen (items.map TodoRecord.id) hnd hsub
    simp at this
    omega
  | succ fuel ih =>
    intro seen hnd hsub hle current depth
    simp only [depthWalkF]
    split
    · simp
    · split
      · simp
      · rename_i pid hp
        by_cases hmissing : (findById items pid).isNone
        · rw [if_pos hmissing]
          simp
        · rw [if_neg hmissing]
          by_cases hseen : pid ∈ seen
          · rw [if_pos hseen]
            simp
          · rw [if_neg hseen]
            cases hf : findById items pid with
            | none => simp [hf] at hmissing
            | some parent =>
              have hmem : pid ∈ items.map TodoRecord.id :=
                findById_mem items pid parent hf
              have := ih (pid :: seen)
                (List.nodup_cons.mpr ⟨hseen, hnd⟩)
                (by
                  intro s hs
                  rcases List.mem_cons.mp hs with rfl | hs
                  · exact hmem
                  · exact hsub s hs)
                (by simp only [List.length_cons]; omega)
                (findById items pid) (depth + 1)
              rw [hf] at this
              exact this

theorem depthForF_isSome (items : List TodoRecord)
    (memo : List (String × Nat)) (todoId : String) :
    (depthForF items (items.length + 1) memo todoId).isSome := by
  rw [depthForF]
  cases hm : cacheGet memo todoId with
  | some d => simp
  | none =>
    have hw := depthWalkF_isSome items (items.length + 1) []
      (by simp) (by simp) (by omega) (findById items todoId) 0
    cases hwf : depthWalkF items (items.length + 1) (findById items todoId)
        [] 0 with
    | none => rw [hwf] at hw; simp at hw
    | some depth => simp

theorem depthForF_null_value (items : List TodoRecord) (fuel : Nat)
    (memo : List (String × Nat)) (todoId : String)
    (d : Nat) (memo' : List (String × Nat))
    (h : depthForF items fuel memo todoId = some (d, memo'))
    (hinv : NullZero items memo) :
    ∀ t, findById items todoId = some t → t.parent_id = none → d = 0 := by
  intro t hf hnone
  rw [depthForF] at h
  cases hm : cacheGet memo todoId with
  | some d0 =>
    simp only [hm, Option.some.injEq, Prod.mk.injEq] at h
    obtain ⟨rfl, rfl⟩ := h
    exact hinv todoId d0 hm t hf hnone
  | none =>
    cases fuel with
    | zero =>
      simp only [hm, depthWalkF] at h
      exact absurd h (by simp)
    | succ fuel =>
      have hwalk : depthWalkF items (fuel + 1) (some t) [] 0 = some 0 := by
        simp only [depthWalkF, hnone]
      simp only [hm, hf, hwalk, Option.some_bind, hnone, Option.isSome_none,
        Bool.false_eq_true, and_false, if_false, Option.some.injEq,
        Prod.mk.injEq] at h
      omega

theorem depthForF_preserves (items : List TodoRecord) (fuel : Nat)
    (memo : List (String × Nat)) (todoId : String)
    (r : Nat × List (String × Nat))
    (h : depthForF items fuel memo todoId = some r)
    (hinv : NullZero items memo) : NullZero items r.2 := by
  rw [depthForF] at h
  cases hm : cacheGet memo todoId with
  | some d0 =>
    rw [hm] at h
    simp only [Option.some.injEq] at h
    rw [← h]
    exact hinv
  | none =>
    rw [hm] at h
    cases hwf : depthWalkF items fuel (findById items todoId) [] 0 with
    | none => rw [hwf] at h; simp at h
    | some depth =>
      rw [hwf] at h
      simp only [Option.some.injEq] at h
      rw [← h]
      intro k dk hk t ht hnone
      rw [cacheGet_cons] at hk
      by_cases hkk : todoId = k
      · rw [if_pos hkk] at hk
        injection hk with hk
        subst hkk
        have := depthForF_null_value items fuel memo todoId _ _
          (by rw [depthForF, hm, hwf]) hinv t ht hnone
        omega
      · rw [if_neg hkk] at hk
        exact hinv k dk hk t ht hnone

theorem depthByIdGo_mono (items : List TodoRecord) (fuel : Nat) :
    ∀ (todos : List TodoRecord) (depths memo : List (String × Nat))
      (res resMemo : List (String × Nat)),
      depthByIdGo items fuel todos depths memo = some (res, resMemo) →
      ∀ k, (cacheGet depths k).isSome → (cacheGet res k).isSome := by
  intro todos
  induction todos with
  | nil =>
    intro depths memo res resMemo h k hk
    simp only [depthByIdGo, Option.some.injEq, Prod.mk.injEq] at h
    rw [← h.1]
    exact hk
  | cons t ts ih =>
    intro depths memo res resMemo h k hk
    rw [depthByIdGo] at h
    cases hg : depthForF items fuel memo t.id with
    | none => rw [hg] at h; simp at h
    | some r0 =>
      rw [hg] at h
      obtain ⟨d, memo'⟩ := r0
      apply ih (depths ++ [(t.id, d)]) memo' res resMemo h k
      rw [cacheGet_append_left _ _ _ hk]
      exact hk

theorem depthByIdGo_spec (items : List TodoRecord) (fuel : Nat) :
    ∀ (todos : List TodoRecord) (depths memo : List (String × Nat))
      (res resMemo : List (String × Nat)),
      depthByIdGo items fuel todos depths memo = some (res, resMemo) →
      NullZero items memo → NullZero items depths →
      NullZero items res
      ∧ (∀ t ∈ todos, (cacheGet res t.id).isSome) := by
  intro todos
  induction todos with
  | nil =>
    intro depths memo res resMemo h hm hd
    simp only [depthByIdGo, Option.some.injEq, Prod.mk.injEq] at h
    rw [← h.1]
    exact ⟨hd, by simp⟩
  | cons t ts ih =>
    intro depths memo res resMemo h hm hd
    rw [depthByIdGo] at h
    cases hg : depthForF items fuel memo t.id with
    | none => rw [hg] at h; simp at h
    | some r0 =>
      rw [hg] at h
      obtain ⟨d, memo'⟩ := r0
      have hm' : NullZero items memo' :=
        depthForF_preserves items fuel memo t.id (d, memo') hg hm
      have hd' : NullZero items (depths ++ [(t.id, d)]) := by
        intro k dk hk u hu hnone
        cases hdep : cacheGet depths k with
        | some d1 =>
          rw [cacheGet_append_left _ _ _ (by simp [hdep])] at hk
          rw [hdep] at hk
          injection hk with hk
          subst hk
          exact hd k d1 hdep u hu hnone
        | none =>
          rw [cacheGet_append_right _ _ _ hdep] at hk
          rw [cacheGet_cons] at hk
          by_cases hkk : t.id = k
          · rw [if_pos hkk] at hk
            injection hk with hk
            subst hk
            subst hkk
            exact depthForF_null_value items fuel memo t.id d memo' hg hm
              u hu hnone
          · rw [if_neg hkk] at hk
            simp [cacheGet] at hk
      obtain ⟨hres, hmem⟩ := ih (depths ++ [(t.id, d)]) memo' res resMemo
        h hm' hd'
      refine ⟨hres, ?_⟩
      intro u hu
      rcases List.mem_cons.mp hu with rfl | hu
      · apply depthByIdGo_mono items fuel ts _ memo' res resMemo h
        cases hdep : cacheGet depths u.id with
        | some d1 =>
          rw [cacheGet_append_left _ _ _ (by simp [hdep]), hdep]
          simp
        | none =>
          rw [cacheGet_append_right _ _ _ hdep, cacheGet_cons, if_pos rfl]
          simp
      · exact hmem u hu

theorem buildDepthGo_isSome (items : List TodoRecord) :
    ∀ (todos : List TodoRecord) (depths cache : List (String × Nat)),
      (buildDepthGo items (items.length + 1) todos depths cache).isSome := by
  intro todos
  induction todos with
  | nil => intro depths cache; simp [buildDepthGo]
  | cons t ts ih =>
    intro depths cache
    rw [buildDepthGo]
    have hg := getDepthF_isSome items (items.length + 1) []
      (by simp) (by simp) (by omega) t.id cache
    cases hgf : getDepthF items (items.length + 1) t.id [] cache with
    | none => rw [hgf] at hg; simp at hg
    | some r0 =>
      obtain ⟨d, cache'⟩ := r0
      exact ih (depths ++ [(t.id, d)]) cache'

theorem depthByIdGo_isSome (items : List TodoRecord) :
    ∀ (todos : List TodoRecord) (depths memo : List (String × Nat)),
      (depthByIdGo items (items.length + 1) todos depths memo).isSome := by
  intro todos
  induction todos with
  | nil => intro depths memo; simp [depthByIdGo]
  | cons t ts ih =>
    intro depths memo
    rw [depthByIdGo]
    have hg := depthForF_isSome items memo t.id
    cases hgf : depthForF items (items.length + 1) memo t.id with
    | none => rw [hgf] at hg; simp at hg
    | some r0 =>
      obtain ⟨d, memo'⟩ := r0
      exact ih (depths ++ [(t.id, d)]) memo'

end DepthLemmasWalk

section ClaimC6

/-- **C6.** Both depth computations terminate on every collection, cycles
and dangling parents included, walking parent links at most once per item:
fuel `items.length + 1` always suffices for the recursive walk of
`buildDepthMap` (`part_005`) and for the `while` walk of `depthByTodoId`
(`part_004`), and both computed depth maps assign 0 to every id whose
record has a `null` `parentId`. -/
theorem c6_depth_terminates_null_zero (items : List TodoRecord) :
    (∀ (id : String) (cache : List (String × Nat)),
       (getDepthF items (items.length + 1) id [] cache).isSome)
    ∧ (buildDepthMap items).isSome
    ∧ (∀ (id : String) (t : TodoRecord) (res : List (String × Nat)),
        buildDepthMap items = some res → findById items id = some t →
        t.parent_id = none → cacheGet res id = some 0)
    ∧ (∀ (current : Option TodoRecord) (depth : Nat),
        (depthWalkF items (items.length + 1) current [] depth).isSome)
    ∧ (depthByTodoId items).isSome
    ∧ (∀ (id : String) (t : TodoRecord) (res : List (String × Nat)),
        depthByTodoId items = some res → findById items id = some t →
        t.parent_id = none → cacheGet res id = some 0) := by
  refine ⟨?_, ?_, ?_, ?_, ?_, ?_⟩
  · intro id cache
    exact getDepthF_isSome items (items.length + 1) [] (by simp) (by simp)
      (by omega) id cache
  · rw [buildDepthMap]
    have := buildDepthGo_isSome items items [] []
    cases h : buildDepthGo items (items.length + 1) items [] [] with
    | none => rw [h] at this; simp at this
    | some r => simp
  · intro id t res hres hf hnone
    rw [buildDepthMap] at hres
    cases h : buildDepthGo items (items.length + 1) items [] [] with
    | none => rw [h] at hres; simp at hres
    | some r =>
      rw [h] at hres
      obtain ⟨depths, resCache⟩ := r
      simp only [Option.map_some'] at hres
      injection hres with hres
      subst hres
      obtain ⟨hnz, hmemAll⟩ := buildDepthGo_spec items (items.length + 1)
        items [] [] depths resCache h
        (by intro k d hk; simp [cacheGet] at hk)
        (by intro k d hk; simp [cacheGet] at hk)
      obtain ⟨hid, htmem⟩ := findById_sound items id t hf
      have hent := hmemAll t htmem
      rw [hid] at hent
      obtain ⟨d, hd⟩ := Option.isSome_iff_exists.mp hent
      have := hnz id d hd t hf hnone
      rw [hd, this]
  · intro current depth
    exact depthWalkF_isSome items (items.length + 1) [] (by simp) (by simp)
      (by omega) current depth
  · rw [depthByTodoId]
    have := depthByIdGo_isSome items items [] []
    cases h : depthByIdGo items (items.length + 1) items [] [] with
    | none => rw [h] at this; simp at this
    | some r => simp
  · intro id t res hres hf hnone
    rw [depthByTodoId] at hres
    cases h : depthByIdGo items (items.length + 1) items [] [] with
    | none => rw [h] at hres; simp at hres
    | some r =>
      rw [h] at hres
      obtain ⟨depths, resMemo⟩ := r
      simp only [Option.map_some'] at hres
      injection hres with hres
      subst hres
      obtain ⟨hnz, hmemAll⟩ := depthByIdGo_spec items (items.length + 1)
        items [] [] depths resMemo h
        (by intro k d hk; simp [cacheGet] at hk)
        (by intro k d hk; simp [cacheGet] at hk)
      obtain ⟨hid, htmem⟩ := findById_sound items id t hf
      have hent := hmemAll t htmem
      rw [hid] at hent
      obtain ⟨d, hd⟩ := Option.isSome_iff_exists.mp hent
      have := hnz id d hd t hf hnone
      rw [hd, this]

/-- The fixture has a parent cycle (`x ↔ y`) plus a `null`-parent root. -/
theorem c6_depth_witness :
    (getDepthF exChain (exChain.length + 1) "c" []
      (([] : List (String × Nat)))).isSome
    ∧ cacheGet ((buildDepthMap
        [mkTodo "a" none, mkTodo "x" (some "y"), mkTodo "y" (some "x")]).getD
        []) "a" = some 0
    ∧ cacheGet ((depthByTodoId
        [mkTodo "a" none, mkTodo "x" (some "y"), mkTodo "y" (some "x")]).getD
        []) "a" = some 0 := by
  have hcyc := c6_depth_terminates_null_zero
    [mkTodo "a" none, mkTodo "x" (some "y"), mkTodo "y" (some "x")]
  refine ⟨(c6_depth_terminates_null_zero exChain).1 "c" [], ?_, ?_⟩
  · obtain ⟨r, hr⟩ := Option.isSome_iff_exists.mp hcyc.2.1
    rw [hr]
    have := hcyc.2.2.1 "a" (mkTodo "a" none) r hr (by decide) rfl
    simpa using this
  · obtain ⟨r, hr⟩ := Option.isSome_iff_exists.mp hcyc.2.2.2.2.1
    rw [hr]
    have := hcyc.2.2.2.2.2 "a" (mkTodo "a" none) r hr (by decide) rfl
    simpa using this

end ClaimC6

section ParentRepairLemmas

theorem map_id_setParent (s : List TodoRecord) (i : String)
    (p : Option String) :
    (setParentInList s i p).map TodoRecord.id = s.map TodoRecord.id := by
  induction s with
  | nil => rfl
  | cons x xs ih =>
    by_cases hx : x.id = i
    · simp [setParentInList, hx] at *
      exact ih
    · simp [setParentInList, hx] at *
      exact ih

theorem findById_setParent_self (s : List TodoRecord) (i : String)
    (p : Option String) :
    findById (setParentInList s i p) i
      = (findById s i).map (fun t => { t with parent_id := p }) := by
  induction s with
  | nil => rfl
  | cons x xs ih =>
    by_cases hx : x.id = i
    · simp [setParentInList, findById, hx]
    · simp only [setParentInList, List.map_cons, if_neg hx, findById,
        hx, if_false]
      simpa [setParentInList] using ih

theorem findById_setParent_other (s : List TodoRecord) (i m : String)
    (p : Option String) (hne : m ≠ i) :
    findById (setParentInList s i p) m = findById s m := by
  induction s with
  | nil => rfl
  | cons x xs ih =>
    by_cases hx : x.id = i
    · have hxm : ¬ x.id = m := by rw [hx]; exact fun h => hne h.symm
      simp only [setParentInList, List.map_cons, if_pos hx, findById]
      rw [if_neg (by simpa using hxm), if_neg hxm]
      simpa [setParentInList] using ih
    · by_cases hxm : x.id = m
      · simp [setParentInList, findById, hx, hxm, hne]
      · simp only [setParentInList, List.map_cons, if_neg hx, findById,
          if_neg hxm]
        simpa [setParentInList] using ih

theorem findById_of_getElem_nodup (l : List TodoRecord) (k : Nat)
    (t : TodoRecord) (hnd : (l.map TodoRecord.id).Nodup)
    (hget : l[k]? = some t) : findById l t.id = some t := by
  induction l generalizing k with
  | nil => simp at hget
  | cons x xs ih =>
    cases k with
    | zero =>
      simp only [List.getElem?_cons_zero, Option.some.injEq] at hget
      subst hget
      simp [findById]
    | succ m =>
      simp only [List.getElem?_cons_succ] at hget
      have hmem : t.id ∈ xs.map TodoRecord.id :=
        List.mem_map_of_mem TodoRecord.id (List.getElem?_mem hget)
      have hx : x.id ≠ t.id := by
        intro h
        exact (List.nodup_cons.mp hnd).1 (h ▸ hmem)
      simp only [findById, if_neg hx]
      exact ih m (List.nodup_cons.mp hnd).2 hget

theorem fixParentLoop_map_id (idx : String → Option Nat) :
    ∀ (fuel : Nat) (state : List TodoRecord) (m : String) (c : Bool)
      (state' : List TodoRecord) (c' : Bool),
      fixParentLoop idx fuel state m c = some (state', c') →
      state'.map TodoRecord.id = state.map TodoRecord.id := by
  intro fuel
  induction fuel with
  | zero => intro state m c state' c' h; simp [fixParentLoop] at h
  | succ fuel ih =>
    intro state m c state' c' h
    rw [fixParentLoop] at h
    cases hfm : findById state m with
    | none =>
      simp only [hfm, Option.some.injEq, Prod.mk.injEq] at h
      rw [h.1]
    | some todo =>
      cases hp : todo.parent_id with
      | none =>
        simp only [hfm, hp, Option.some.injEq, Prod.mk.injEq] at h
        rw [h.1]
      | some pid =>
        cases hfp : findById state pid with
        | none =>
          simp only [hfm, hp, hfp, Option.some.injEq, Prod.mk.injEq] at h
          rw [← h.1, map_id_setParent]
        | some parent =>
          cases hip : idx pid with
          | some pIdx =>
            cases him : idx m with
            | some tIdx =>
              simp only [hfm, hp, hfp, hip, him] at h
              by_cases hlt : pIdx < tIdx
              · rw [if_pos hlt] at h
                simp only [Option.some.injEq, Prod.mk.injEq] at h
                rw [h.1]
              · rw [if_neg hlt] at h
                have := ih (setParentInList state m parent.parent_id) m true
                  state' c' h
                rw [this, map_id_setParent]
            | none =>
              simp only [hfm, hp, hfp, hip, him] at h
              have := ih (setParentInList state m parent.parent_id) m true
                state' c' h
              rw [this, map_id_setParent]
          | none =>
            simp only [hfm, hp, hfp, hip] at h
            have := ih (setParentInList state m parent.parent_id) m true
              state' c' h
            rw [this, map_id_setParent]

theorem fixParentLoop_other (idx : String → Option Nat) :
    ∀ (fuel : Nat) (state : List TodoRecord) (m : String) (c : Bool)
      (state' : List TodoRecord) (c' : Bool),
      fixParentLoop idx fuel state m c = some (state', c') →
      ∀ k, k ≠ m → findById state' k = findById state k := by
  intro fuel
  induction fuel with
  | zero => intro state m c state' c' h; simp [fixParentLoop] at h
  | succ fuel ih =>
    intro state m c state' c' h k hk
    rw [fixParentLoop] at h
    cases hfm : findById state m with
    | none =>
      simp only [hfm, Option.some.injEq, Prod.mk.injEq] at h
      rw [h.1]
    | some todo =>
      cases hp : todo.parent_id with
      | none =>
        simp only [hfm, hp, Option.some.injEq, Prod.mk.injEq] at h
        rw [h.1]
      | some pid =>
        cases hfp : findById state pid with
        | none =>
          simp only [hfm, hp, hfp, Option.some.injEq, Prod.mk.injEq] at h
          rw [← h.1, findById_setParent_other state m k none hk]
        | some parent =>
          cases hip : idx pid with
          | some pIdx =>
            cases him : idx m with
            | some tIdx =>
              simp only [hfm, hp, hfp, hip, him] at h
              by_cases hlt : pIdx < tIdx
              · rw [if_pos hlt] at h
                simp only [Option.some.injEq, Prod.mk.injEq] at h
                rw [h.1]
              · rw [if_neg hlt] at h
                rw [ih (setParentInList state m parent.parent_id) m true
                  state' c' h k hk]
                exact findById_setParent_other state m k parent.parent_id hk
            | none =>
              simp only [hfm, hp, hfp, hip, him] at h
              rw [ih (setParentInList state m parent.parent_id) m true
                state' c' h k hk]
              exact findById_setParent_other state m k parent.parent_id hk
          | none =>
            simp only [hfm, hp, hfp, hip] at h
            rw [ih (setParentInList state m parent.parent_id) m true
              state' c' h k hk]
            exact findById_setParent_other state m k parent.parent_id hk

theorem fixParentLoop_post (idx : String → Option Nat) :
    ∀ (fuel : Nat) (state : List TodoRecord) (m : String) (c : Bool)
      (state' : List TodoRecord) (c' : Bool),
      fixParentLoop idx fuel state m c = some (state', c') →
      ParentEarlier idx state' m := by
  intro fuel
  induction fuel with
  | zero => intro state m c state' c' h; simp [fixParentLoop] at h
  | succ fuel ih =>
    intro state m c state' c' h
    rw [fixParentLoop] at h
    cases hfm : findById state m with
    | none =>
      simp only [hfm, Option.some.injEq, Prod.mk.injEq] at h
      intro t ht
      rw [← h.1, hfm] at ht
      exact absurd ht (by simp)
    | some todo =>
      cases hp : todo.parent_id with
      | none =>
        simp only [hfm, hp, Option.some.injEq, Prod.mk.injEq] at h
        intro t ht
        rw [← h.1, hfm] at ht
        injection ht with ht
        subst ht
        exact Or.inl hp
      | some pid =>
        cases hfp : findById state pid with
        | none =>
          simp only [hfm, hp, hfp, Option.some.injEq, Prod.mk.injEq] at h
          intro t ht
          rw [← h.1, findById_setParent_self, hfm] at ht
          simp only [Option.map_some', Option.some.injEq] at ht
          subst ht
          exact Or.inl rfl
        | some parent =>
          cases hip : idx pid with
          | some pIdx =>
            cases him : idx m with
            | some tIdx =>
              simp only [hfm, hp, hfp, hip, him] at h
              by_cases hlt : pIdx < tIdx
              · rw [if_pos hlt] at h
                simp only [Option.some.injEq, Prod.mk.injEq] at h
                intro t ht
                rw [← h.1, hfm] at ht
                injection ht with ht
                subst ht
                exact Or.inr ⟨pid, pIdx, tIdx, hp, hip, him, hlt⟩
              · rw [if_neg hlt] at h
                exact ih (setParentInList state m parent.parent_id) m true
                  state' c' h
            | none =>
              simp only [hfm, hp, hfp, hip, him] at h
              exact ih (setParentInList state m parent.parent_id) m true
                state' c' h
          | none =>
            simp only [hfm, hp, hfp, hip] at h
            exact ih (setParentInList state m parent.parent_id) m true
              state' c' h

theorem fixMovedParents_map_id (idx : String → Option Nat) (fuel : Nat) :
    ∀ (ms : List String) (state : List TodoRecord)
      (acc : List (String × Option String)) (final : List TodoRecord)
      (upd : List (String × Option String)),
      fixMovedParents idx fuel state ms acc = some (final, upd) →
      final.map TodoRecord.id = state.map TodoRecord.id := by
  intro ms
  induction ms with
  | nil =>
    intro state acc final upd h
    simp only [fixMovedParents, Option.some.injEq, Prod.mk.injEq] at h
    rw [h.1]
  | cons m0 ms ih =>
    intro state acc final upd h
    rw [fixMovedParents] at h
    cases hfm : findById state m0 with
    | none =>
      simp only [hfm] at h
      exact ih state acc final upd h
    | some todo =>
      simp only [hfm] at h
      cases hloop : fixParentLoop idx fuel state m0 false with
      | none => rw [hloop] at h; simp at h
      | some r =>
        rw [hloop] at h
        obtain ⟨state1, changed⟩ := r
        have h1 := ih state1 _ final upd h
        rw [h1, fixParentLoop_map_id idx fuel state m0 false state1 changed
          hloop]

theorem fixMovedParents_post (idx : String → Option Nat) (fuel : Nat) :
    ∀ (ms : List String) (state : List TodoRecord)
      (acc : List (String × Option String)) (final : List TodoRecord)
      (upd : List (String × Option String)),
      fixMovedParents idx fuel state ms acc = some (final, upd) →
      ∀ m, (ParentEarlier idx state m ∨ m ∈ ms) →
        ParentEarlier idx final m := by
  intro ms
  induction ms with
  | nil =>
    intro state acc final upd h m hm
    simp only [fixMovedParents, Option.some.injEq, Prod.mk.injEq] at h
    rcases hm with hm | hm
    · rw [h.1] at hm
      exact hm
    · simp at hm
  | cons m0 ms ih =>
    intro state acc final upd h m hm
    rw [fixMovedParents] at h
    cases hfm : findById state m0 with
    | none =>
      simp only [hfm] at h
      apply ih state acc final upd h m
      rcases hm with hm | hm
      · exact Or.inl hm
      · rcases List.mem_cons.mp hm with rfl | hm
        · left
          intro t ht
          rw [hfm] at ht
          exact absurd ht (by simp)
        · exact Or.inr hm
    | some todo =>
      simp only [hfm] at h
      cases hloop : fixParentLoop idx fuel state m0 false with
      | none => rw [hloop] at h; simp at h
      | some r =>
        rw [hloop] at h
        obtain ⟨state1, changed⟩ := r
        apply ih state1 _ final upd h m
        by_cases hmm : m = m0
        · subst hmm
          exact Or.inl (fixParentLoop_post idx fuel state m false state1
            changed hloop)
        · rcases hm with hm | hm
          · left
            intro t ht
            rw [fixParentLoop_other idx fuel state m0 false state1 changed
              hloop m hmm] at ht
            exact hm t ht
          · rcases List.mem_cons.mp hm with rfl | hm
            · exact absurd rfl hmm
            · exact Or.inr hm

end ParentRepairLemmas

section ClaimC3

/-- **C3.** After any committed run of the parent-repair pass
(`normalizeMovedParentsAfterReorder`, applied to the list produced by a
structural move before the parent updates are persisted), every moved task
in the resulting sequence has a `parentId` that is `null` or references a
task at an earlier index — so, positions being the indices after
renormalization, a child always falls after its parent. The hypothesis that
the run returns a value reflects that the source's `while` loop commits
nothing when it does not terminate. -/
theorem c3_moved_parents_earlier (items : List TodoRecord)
    (movedIds : List String) (fuel : Nat) (next : List TodoRecord)
    (updates : List (String × Option String))
    (hnd : (items.map TodoRecord.id).Nodup)
    (hrun : normalizeMovedParentsAfterReorder items movedIds fuel
      = some (next, updates)) :
    ∀ m ∈ movedIds, ∀ (i : Nat) (t : TodoRecord),
      next[i]? = some t → t.id = m →
      t.parent_id = none
      ∨ ∃ (j : Nat) (p : TodoRecord), j < i ∧ next[j]? = some p
          ∧ t.parent_id = some p.id := by
  rw [normalizeMovedParentsAfterReorder] at hrun
  have hids : next.map TodoRecord.id = items.map TodoRecord.id :=
    fixMovedParents_map_id (fun s => findIdxById items s) fuel movedIds
      items [] next updates hrun
  have hndNext : (next.map TodoRecord.id).Nodup := by rw [hids]; exact hnd
  intro m hm i t hget hid
  have hfind : findById next m = some t := by
    rw [← hid]
    exact findById_of_getElem_nodup next i t hndNext hget
  have hpost := fixMovedParents_post (fun s => findIdxById items s) fuel
    movedIds items [] next updates hrun m (Or.inr hm) t hfind
  rcases hpost with hnone | ⟨p, pIdx, tIdx, hp, hpidx, htidx, hlt⟩
  · exact Or.inl hnone
  · right
    have hstr : findIdxById items m = findIdxById next m := by
      rw [findIdxById_eq_strIdx, findIdxById_eq_strIdx, hids]
    have hfi : findIdxById next m = some i := by
      rw [← hid]
      exact findIdxById_of_getElem_nodup next i t hndNext hget
    have htidxEq : findIdxById items m = some tIdx := htidx
    have hpidxEq : findIdxById items p = some pIdx := hpidx
    have htidx' : tIdx = i := by
      rw [hstr, hfi] at htidxEq
      injection htidxEq with hh
      exact hh.symm
    have hpi : findIdxById next p = some pIdx := by
      rw [findIdxById_eq_strIdx, hids, ← findIdxById_eq_strIdx]
      exact hpidxEq
    obtain ⟨u, hu, huid⟩ := findIdxById_sound next p pIdx hpi
    refine ⟨pIdx, u, ?_, hu, ?_⟩
    · omega
    · rw [hp, huid]

/-- Concrete run: moving `"c"` (child of `"b"`) to the front of `[a, b, c]`
puts both of its ancestors after it; the repair walks `c`'s chain up to
`null`, and the theorem's disjunction holds at its index 0. -/
theorem c3_moved_parents_witness :
    ({ exC with parent_id := none } : TodoRecord).parent_id = none
    ∨ ∃ (j : Nat) (p : TodoRecord), j < 0
        ∧ ([{ exC with parent_id := none }, exA, exB] :
            List TodoRecord)[j]? = some p
        ∧ ({ exC with parent_id := none } : TodoRecord).parent_id
            = some p.id :=
  c3_moved_parents_earlier [exC, exA, exB] ["c"] 4
    [{ exC with parent_id := none }, exA, exB] [("c", none)]
    (by decide) (by decide) "c" (by decide) 0
    { exC with parent_id := none } (by decide) (by decide)

end ClaimC3

section NestLemmas

theorem filter_mem_nil (l : List TodoRecord) :
    l.filter (fun t => t.id ∈ ([] : List String)) = [] := by
  induction l with
  | nil => rfl
  | cons x xs ih => simp [List.filter_cons, ih]

theorem filter_id_eq_nil_of_not_mem (l : List TodoRecord) (s : String)
    (h : s ∉ l.map TodoRecord.id) :
    l.filter (fun u => u.id = s) = [] := by
  induction l with
  | nil => rfl
  | cons x xs ih =>
    have hx : x.id ≠ s := by
      intro hxs
      exact h (hxs ▸ List.mem_map_of_mem TodoRecord.id
        (List.mem_cons_self x xs))
    rw [List.filter_cons_of_neg (by simpa using hx)]
    exact ih (fun hm => h (by simpa using Or.inr (by simpa using hm)))

theorem filter_id_eq_single (l : List TodoRecord) (k : Nat) (t : TodoRecord)
    (hnd : (l.map TodoRecord.id).Nodup) (ht : l[k]? = some t) :
    l.filter (fun u => u.id = t.id) = [t] := by
  induction l generalizing k with
  | nil => simp at ht
  | cons x xs ih =>
    cases k with
    | zero =>
      simp only [List.getElem?_cons_zero, Option.some.injEq] at ht
      subst ht
      rw [List.filter_cons_of_pos (by simp)]
      rw [filter_id_eq_nil_of_not_mem xs x.id (List.nodup_cons.mp hnd).1]
    | succ m =>
      simp only [List.getElem?_cons_succ] at ht
      have hmem : t.id ∈ xs.map TodoRecord.id :=
        List.mem_map_of_mem TodoRecord.id (List.getElem?_mem ht)
      have hx : x.id ≠ t.id := by
        intro h
        exact (List.nodup_cons.mp hnd).1 (h ▸ hmem)
      rw [List.filter_cons_of_neg (by simpa using hx)]
      exact ih m (List.nodup_cons.mp hnd).2 ht

theorem filter_ne_singleton_of_not_mem (l : List TodoRecord) (s : String)
    (h : s ∉ l.map TodoRecord.id) :
    l.filter (fun u => u.id ∉ ([s] : List String)) = l := by
  induction l with
  | nil => rfl
  | cons x xs ih =>
    have hx : x.id ≠ s := by
      intro hxs
      exact h (hxs ▸ List.mem_map_of_mem TodoRecord.id
        (List.mem_cons_self x xs))
    rw [List.filter_cons_of_pos (by simpa using hx)]
    rw [ih (fun hm => h (by simpa using Or.inr (by simpa using hm)))]

theorem insertAllAt_filter_eq (l : List TodoRecord) (k : Nat)
    (t : TodoRecord) (hnd : (l.map TodoRecord.id).Nodup)
    (ht : l[k]? = some t) :
    insertAllAt (l.filter (fun u => u.id ∉ ([t.id] : List String))) k [t]
      = l := by
  induction l generalizing k with
  | nil => simp at ht
  | cons x xs ih =>
    cases k with
    | zero =>
      simp only [List.getElem?_cons_zero, Option.some.injEq] at ht
      subst ht
      rw [List.filter_cons_of_neg (by simp)]
      rw [filter_ne_singleton_of_not_mem xs x.id (List.nodup_cons.mp hnd).1]
      simp [insertAllAt]
    | succ m =>
      simp only [List.getElem?_cons_succ] at ht
      have hmem : t.id ∈ xs.map TodoRecord.id :=
        List.mem_map_of_mem TodoRecord.id (List.getElem?_mem ht)
      have hx : x.id ≠ t.id := by
        intro h
        exact (List.nodup_cons.mp hnd).1 (h ▸ hmem)
      rw [List.filter_cons_of_pos (by simpa using hx)]
      have := ih m (List.nodup_cons.mp hnd).2 ht
      simp only [insertAllAt] at this ⊢
      simp only [List.take_succ_cons, List.drop_succ_cons, List.cons_append]
      rw [this]

theorem getElem?_normFrom (l : List TodoRecord) (n k : Nat) :
    (normFrom n l)[k]?
      = (l[k]?).map (fun u => { u with position := ((n + k : Nat) : Int) }) := by
  induction l generalizing n k with
  | nil => simp [normFrom]
  | cons x xs ih =>
    cases k with
    | zero => simp [normFrom]
    | succ m =>
      simp only [normFrom, List.getElem?_cons_succ, ih (n + 1) m]
      have harith : n + 1 + m = n + (m + 1) := by omega
      rw [harith]

theorem map_id_map_pres (l : List TodoRecord) (g : TodoRecord → TodoRecord)
    (hg : ∀ u, (g u).id = u.id) :
    (l.map g).map TodoRecord.id = l.map TodoRecord.id := by
  induction l with
  | nil => rfl
  | cons x xs ih => simp [hg, ih]

theorem findById_map_pres (l : List TodoRecord) (g : TodoRecord → TodoRecord)
    (hg : ∀ u, (g u).id = u.id) (s : String) :
    findById (l.map g) s = (findById l s).map g := by
  induction l with
  | nil => rfl
  | cons x xs ih =>
    by_cases hx : x.id = s
    · simp [findById, hg, hx]
    · simp only [List.map_cons, findById, hg, hx, if_false]
      exact ih

theorem someWithIndex_true_of (f : Nat → TodoRecord → Bool)
    (l : List TodoRecord) (n k : Nat) (x : TodoRecord)
    (hget : l[k]? = some x) (hf : f (n + k) x = true) :
    someWithIndex f n l = true := by
  induction l generalizing n k with
  | nil => simp at hget
  | cons y ys ih =>
    cases k with
    | zero =>
      simp only [List.getElem?_cons_zero, Option.some.injEq] at hget
      subst hget
      simp only [someWithIndex, Bool.or_eq_true]
      exact Or.inl (by simpa using hf)
    | succ m =>
      simp only [List.getElem?_cons_succ] at hget
      simp only [someWithIndex, Bool.or_eq_true]
      right
      exact ih (n + 1) m hget (by
        have : n + 1 + m = n + (m + 1) := by omega
        rw [this]
        exact hf)

theorem applyParentUpdates_id (upd : List (String × Option String))
    (v : TodoRecord) : (applyParentUpdates upd v).id = v.id := by
  rw [applyParentUpdates]
  split <;> rfl

theorem nodup_adjacent_id_ne (items : List TodoRecord) (i : Nat)
    (p t : TodoRecord) (hnd : (items.map TodoRecord.id).Nodup)
    (hp : items[i]? = some p) (ht : items[i + 1]? = some t) :
    p.id ≠ t.id := by
  intro heq
  have hpi : (items.map TodoRecord.id)[i]? = some p.id := by
    rw [List.getElem?_map, hp]
    rfl
  have hti : (items.map TodoRecord.id)[i + 1]? = some t.id := by
    rw [List.getElem?_map, ht]
    rfl
  rw [heq] at hpi
  have hlen : i < (items.map TodoRecord.id).length :=
    (List.getElem?_eq_some.mp hpi).1
  have := List.getElem?_inj hlen hnd (hpi.trans hti.symm)
  omega

end NestLemmas

section NestEval

theorem compactSelection_single (items : List TodoRecord) (k : Nat)
    (t : TodoRecord) (hnd : (items.map TodoRecord.id).Nodup)
    (ht : items[k]? = some t) :
    compactSelectionAtAnchor items [] t.id = some (items, [t], k) := by
  have hblock := filter_id_eq_single items k t hnd ht
  have hanch := findIdxById_of_getElem_nodup items k t hnd ht
  have hins := insertAllAt_filter_eq items k t hnd ht
  simp only [compactSelectionAtAnchor, filter_mem_nil, if_true]
  rw [hblock]
  simp only [hanch, List.map_cons, List.map_nil]
  rw [hins]

end NestEval

section ClaimC4

/-- **C4 counterexample.** In the valid pre-order collection
`[a, b(parent a), c(parent b)]`, `nest` on `c` does not attach `c` under its
preceding sibling-level node: since `c` was not at `b`'s level, the source
flattens it to `b`'s own parent level (`parent := a`), and the immediately
following `unnest` then lifts it to `a`'s parent, i.e. `null`. The original
`parentId` `some "b"` is not restored, refuting the universal claim. -/
theorem c4_counterexample :
    (nestComputeNext exChain [] "c").isSome
    ∧ ((nestComputeNext exChain [] "c").bind
        (fun r => unnestComputeNext r.1 [] "c")).map
        (fun r2 => (findById r2.1 "c").map TodoRecord.parent_id)
      = some (some none)
    ∧ exC.parent_id = some "b" := by decide

/-- **C4 (amended).** `nest` followed immediately by `unnest` on the same
target (no intervening structural change, single-item selection) restores
the target's original `parentId` provided the target sat at the same
level as the immediately preceding item (`t.parent_id = p.parent_id`, the
configuration in which `nest` genuinely attaches the target under `p`),
with unique ids and `p` not its own parent. -/
theorem c4_nest_unnest_roundtrip :
    ∀ (items : List TodoRecord) (i : Nat) (p t : TodoRecord),
      (items.map TodoRecord.id).Nodup →
      items[i]? = some p → items[i + 1]? = some t →
      t.parent_id = p.parent_id →
      p.parent_id ≠ some p.id →
      ∃ next u1 next2 u2,
        nestComputeNext items [] t.id = some (next, u1)
        ∧ unnestComputeNext next [] t.id = some (next2, u2)
        ∧ (findById next2 t.id).map TodoRecord.parent_id
            = some t.parent_id := by
  intro items i p t hnd hp ht hpar hself
  have hpne : p.id ≠ t.id := nodup_adjacent_id_ne items i p t hnd hp ht
  have hcompact := compactSelection_single items (i + 1) t hnd ht
  -- the reparenting map applied to the block
  set g : TodoRecord → TodoRecord := fun u =>
    if u.id ∈ ([t.id] : List String) then { u with parent_id := some p.id }
    else u with hg
  have hgid : ∀ u, (g u).id = u.id := by
    intro u
    simp only [hg]
    split <;> rfl
  have hgt : g t = { t with parent_id := some p.id } := by
    rw [hg]
    simp
  have hgp : g p = p := by
    rw [hg]
    simp [hpne]
  set next : List TodoRecord := normalizePositions (items.map g) with hnext
  -- elements of `next` at the two indices
  have hnextT : next[i + 1]?
      = some { t with parent_id := some p.id, position := ((i + 1 : Nat) : Int) } := by
    rw [hnext, normalizePositions, getElem?_normFrom, List.getElem?_map, ht]
    simp only [Option.map_some']
    rw [hgt]
    simp
  have hnextP : next[i]? = some { p with position := (i : Int) } := by
    rw [hnext, normalizePositions, getElem?_normFrom, List.getElem?_map, hp]
    simp only [Option.map_some']
    rw [hgp]
    simp
  have hidsNext : next.map TodoRecord.id = items.map TodoRecord.id := by
    rw [hnext, normalizePositions, map_id_normFrom, map_id_map_pres items g hgid]
  have hndNext : (next.map TodoRecord.id).Nodup := by
    rw [hidsNext]
    exact hnd
  have hfindT : findById next t.id
      = some { t with parent_id := some p.id, position := ((i + 1 : Nat) : Int) } := by
    have := findById_of_getElem_nodup next (i + 1) _ hndNext hnextT
    simpa using this
  have hfindP : findById next p.id = some { p with position := (i : Int) } := by
    have := findById_of_getElem_nodup next i _ hndNext hnextP
    simpa using this
  -- the changed check fires at index i+1
  have hchanged : idsOrParentChanged next items = true := by
    apply someWithIndex_true_of _ next 0 (i + 1) _ hnextT
    simp only [Nat.zero_add, ht]
    have hne1 : ¬ t.parent_id = some p.id := by
      rw [hpar]
      exact hself
    have hne2 : ¬ some p.id = t.parent_id := fun h => hne1 h.symm
    simp [hne1, hne2]
  -- evaluate nestComputeNext
  have hnest : nestComputeNext items [] t.id
      = some (next, [(t.id, some p.id)]) := by
    simp only [nestComputeNext, hcompact]
    rw [if_neg (by omega : ¬ i + 1 = 0)]
    simp only [Nat.add_sub_cancel, hp]
    simp only [List.map_cons, List.map_nil, List.all_cons, List.all_nil,
      hpar, decide_True, Bool.and_true]
    cases hpp : p.parent_id with
    | none =>
      simp only [hpp, Option.isSome_none, Bool.false_and]
      rw [← hnext]
      simp only [hchanged, if_true]
      rw [hfindT]
      simp
    | some pl =>
      simp only [hpp, Option.isSome_some, Bool.true_and, if_true]
      rw [← hnext]
      simp only [hchanged, if_true]
      rw [hfindT]
      simp
  -- evaluate unnestComputeNext on next
  have hunnestTargets :
      (if ([] : List String) ≠ [] ∧ t.id ∈ ([] : List String)
       then ([] : List String) else [t.id]) = [t.id] := by
    simp
  have hcond : ¬ (p.parent_id = some p.id) := hself
  have hunnest : unnestComputeNext next [] t.id
      = some (next.map (applyParentUpdates [(t.id, p.parent_id)]),
        [(t.id, p.parent_id)]) := by
    simp only [unnestComputeNext, hunnestTargets, List.filterMap_cons,
      List.filterMap_nil, hfindT, hfindP]
    simp only [hcond, if_false]
    simp
  refine ⟨next, [(t.id, some p.id)],
    next.map (applyParentUpdates [(t.id, p.parent_id)]),
    [(t.id, p.parent_id)], hnest, hunnest, ?_⟩
  rw [findById_map_pres next (applyParentUpdates [(t.id, p.parent_id)])
    (fun u => applyParentUpdates_id [(t.id, p.parent_id)] u) t.id, hfindT]
  simp only [Option.map_some']
  rw [applyParentUpdates]
  simp [List.find?, hpar]

theorem c4_nest_unnest_witness :
    ((nestComputeNext exFlat3 [] "c").bind
        (fun r => unnestComputeNext r.1 [] "c")).map
        (fun r2 => (findById r2.1 "c").map TodoRecord.parent_id)
      = some (some exFlatC.parent_id) := by
  obtain ⟨next, u1, next2, u2, h1, h2, h3⟩ :=
    c4_nest_unnest_roundtrip exFlat3 1 exFlatB exFlatC (by decide)
      (by decide) (by decide) (by decide) (by decide)
  have h1' : nestComputeNext exFlat3 [] "c" = some (next, u1) := h1
  have h2' : unnestComputeNext next [] "c" = some (next2, u2) := h2
  have h3' : (findById next2 "c").map TodoRecord.parent_id
      = some exFlatC.parent_id := h3
  rw [h1']
  simp only [Option.some_bind, h2', Option.map_some']
  rw [h3']

end ClaimC4

end Nest
